import Mathlib

/-!
# Evaluation store of flipt (`storage/db/evaluation.go`)

A shallow embedding of `EvaluationStore.GetEvaluationRules` and
`EvaluationStore.GetEvaluationDistributions`, and theorems about them.

The two functions talk to a SQL database.  What the database does is the
input of the model: the outcome of `QueryContext` (an error, or a row
cursor), and for a cursor the outcome of each `rows.Next()`/`rows.Scan(...)`
pair, of `rows.Err()` and of `rows.Close()`.  Logging has no effect on the
data path and is left out.
-/

namespace Flipt

/-! ## Go values -/

/-- A Go `error` value, identified by its message.  The interface value is an
`Option GoError`, `none` being `nil`. -/
abbrev GoError := String

/-- A Go slice value: the nil slice, or a non-nil slice with its elements. -/
inductive GoSlice (α : Type) where
  | nil : GoSlice α
  | mk (elems : List α) : GoSlice α
deriving DecidableEq, Repr

namespace GoSlice

/-- The elements of a slice, in order. -/
def toList {α : Type} : GoSlice α → List α
  | nil => []
  | mk l => l

/-- Go `len(s)`. -/
def len {α : Type} (s : GoSlice α) : Nat := s.toList.length

/-- Go `s == nil`. -/
def isNil {α : Type} : GoSlice α → Bool
  | nil => true
  | mk _ => false

/-- Go `append(s, x)`: the result is never nil. -/
def append {α : Type} (s : GoSlice α) (x : α) : GoSlice α := mk (s.toList ++ [x])

end GoSlice

/-- Go `sql.NullString`; `String_` is its field `String`. -/
structure NullString where
  String_ : String
  Valid : Bool
deriving DecidableEq, Repr

/-- Go `sql.NullInt64`. -/
structure NullInt64 where
  Int64 : Int
  Valid : Bool
deriving DecidableEq, Repr

/-- What `rows.Scan` stores into a `*sql.NullString` for a column value:
SQL NULL gives the zero string and `Valid = false`. -/
def NullString.Scan : Option String → NullString
  | none => ⟨"", false⟩
  | some s => ⟨s, true⟩

/-- What `rows.Scan` stores into a `*sql.NullInt64` for a column value. -/
def NullInt64.Scan : Option Int → NullInt64
  | none => ⟨0, false⟩
  | some n => ⟨n, true⟩

/-- The struct `optionalConstraint` (evaluation.go, lines 15-21); `Type_` is
its field `Type`. -/
structure optionalConstraint where
  ID : NullString
  Type_ : NullInt64
  Property : NullString
  Operator : NullString
  Value : NullString
deriving DecidableEq, Repr

/-- Modelled from the spec: `flipt.ComparisonType`, the comparison-type enum of
the Constraint entity, is declared in package `rpc`, outside the sources at
hand.  It is a protobuf enum, that is a Go `int32`; the conversion
`flipt.ComparisonType(x)` of an `int64` keeps the low 32 bits. -/
def ComparisonType (x : Int) : Int := (x + 2 ^ 31) % 2 ^ 32 - 2 ^ 31

/-- Modelled from the spec: the Constraint entity (id, type, property,
operator, value), `storage.EvaluationConstraint`, declared in package
`storage`; `Type_` is its field `Type`. -/
structure EvaluationConstraint where
  ID : String
  Type_ : Int
  Property : String
  Operator : String
  Value : String
deriving DecidableEq, Repr

/-- Modelled from the spec: the Rule entity (id, flagKey, segmentKey,
segmentMatchType, rank) with its constraint sequence,
`storage.EvaluationRule`, declared in package `storage`. -/
structure EvaluationRule where
  ID : String
  FlagKey : String
  SegmentKey : String
  SegmentMatchType : Int
  Rank : Int
  Constraints : GoSlice EvaluationConstraint
deriving DecidableEq, Repr

/-- Modelled from the spec: the Distribution entity (id, ruleId, variantId,
rollout, variantKey), `storage.EvaluationDistribution`, declared in package
`storage`.  The numeric type of the rollout weight is the parameter `ω`; the
code only copies it. -/
structure EvaluationDistribution (ω : Type) where
  ID : String
  RuleID : String
  VariantID : String
  Rollout : ω
  VariantKey : String
deriving DecidableEq, Repr

/-! ## The database side -/

/-- One row of the rules query (line 41): the ten selected columns.  The five
constraint columns come from a left join and may be SQL NULL. -/
structure SqlRow where
  r_id : String
  r_flag_key : String
  r_segment_key : String
  s_match_type : Int
  r_rank : Int
  c_id : Option String
  c_type : Option Int
  c_property : Option String
  c_operator : Option String
  c_value : Option String
deriving DecidableEq, Repr

/-- One row of the distributions query (line 123): the five selected columns. -/
structure DistributionRow (ω : Type) where
  d_id : String
  d_rule_id : String
  d_variant_id : String
  d_rollout : ω
  v_key : String
deriving DecidableEq, Repr

/-- A row cursor (`*sql.Rows`) as the calls see it: `items` has one entry for
each `rows.Next()` that returns true, the outcome of the `rows.Scan` of that
row (the decoded columns, or the decode error); `err` is what `rows.Err()`
returns once `rows.Next()` has returned false; `closeErr` is what
`rows.Close()` returns. -/
structure Rows (ρ : Type) where
  items : List (Except GoError ρ)
  err : Option GoError
  closeErr : Option GoError

/-- What a call leaves behind: its two return values, and two observations on
its frame, the last content of the local variable `err` declared with `rows`
and the number of `rows.Close()` calls made. -/
structure Call (α : Type) where
  result : GoSlice α
  error : Option GoError
  err : Option GoError
  closed : Nat
deriving DecidableEq, Repr

/-! ## GetEvaluationRules -/

/-- The memory of the loop of `GetEvaluationRules`: `heap` holds the
`storage.EvaluationRule` objects allocated so far, a pointer being an index
into it; `seenRules` is the Go map from rule id to pointer; `rules` is the
slice of pointers. -/
structure LoopState where
  heap : List EvaluationRule
  seenRules : String → Option Nat
  rules : GoSlice Nat

/-- Lines 59-62: an empty map and a non-nil empty slice. -/
def LoopState.init : LoopState :=
  ⟨[], fun _ => none, GoSlice.mk []⟩

/-- The successful `rows.Scan` of line 70: the rule columns go to `tempRule`
(whose `Constraints` stay nil), the constraint columns to
`optionalConstraint`. -/
def scanRow (row : SqlRow) : EvaluationRule × optionalConstraint :=
  (⟨row.r_id, row.r_flag_key, row.r_segment_key, row.s_match_type, row.r_rank, GoSlice.nil⟩,
   ⟨NullString.Scan row.c_id, NullInt64.Scan row.c_type, NullString.Scan row.c_property,
    NullString.Scan row.c_operator, NullString.Scan row.c_value⟩)

/-- The composite literal of lines 77-83 and 97-103. -/
def mkConstraint (oc : optionalConstraint) : EvaluationConstraint :=
  ⟨oc.ID.String_, ComparisonType oc.Type_.Int64, oc.Property.String_, oc.Operator.String_,
   oc.Value.String_⟩

/-- Lines 74-109: the loop body after a successful scan. -/
def loopBody (st : LoopState) (row : SqlRow) : LoopState :=
  let tempRule := (scanRow row).1
  let oc := (scanRow row).2
  match st.seenRules tempRule.ID with
  | some existingRule =>
    if oc.ID.Valid then
      ⟨st.heap.modify
          (fun r => { r with Constraints := r.Constraints.append (mkConstraint oc) })
          existingRule,
        st.seenRules, st.rules⟩
    else st
  | none =>
    let newRule : EvaluationRule :=
      ⟨tempRule.ID, tempRule.FlagKey, tempRule.SegmentKey, tempRule.SegmentMatchType,
       tempRule.Rank, GoSlice.nil⟩
    let newRule : EvaluationRule :=
      if oc.ID.Valid then
        { newRule with Constraints := newRule.Constraints.append (mkConstraint oc) }
      else newRule
    let p := st.heap.length
    ⟨st.heap ++ [newRule],
     fun k => if k = newRule.ID then some p else st.seenRules k,
     st.rules.append p⟩

/-- Lines 64-110: the loop; a failed `rows.Scan` returns its error at once. -/
def rulesLoop : List (Except GoError SqlRow) → LoopState → Except GoError LoopState
  | [], st => Except.ok st
  | Except.error e :: _, _ => Except.error e
  | Except.ok row :: rest, st => rulesLoop rest (loopBody st row)

/-- The zero value of `storage.EvaluationRule`. -/
def EvaluationRule.zero : EvaluationRule := ⟨"", "", "", 0, 0, GoSlice.nil⟩

/-- The rules a slice of pointers points to. -/
def derefAll (heap : List EvaluationRule) (ps : GoSlice Nat) : GoSlice EvaluationRule :=
  match ps with
  | GoSlice.nil => GoSlice.nil
  | GoSlice.mk l => GoSlice.mk (l.map fun p => heap.getD p EvaluationRule.zero)

/-- The deferred function of lines 53-57 and 132-136, run when the call
returns: it closes the cursor and, when that fails and the local `err` is nil,
assigns the failure to the local `err`.  The return values of both functions
are unnamed, so the assignment does not reach them. -/
def deferredClose {ρ : Type} (rows : Rows ρ) (err : Option GoError) : Option GoError :=
  match rows.closeErr, err with
  | some cerr, none => some cerr
  | _, _ => err

/-- The function `EvaluationStore.GetEvaluationRules` (lines 37-118), on the
outcome of the `QueryContext` call of lines 41-48. -/
def GetEvaluationRules (query : Except GoError (Rows SqlRow)) : Call EvaluationRule :=
  match query with
  | Except.error err => ⟨GoSlice.nil, some err, some err, 0⟩
  | Except.ok rows =>
    let err : Option GoError := none
    let ret : GoSlice EvaluationRule × Option GoError :=
      match rulesLoop rows.items LoopState.init with
      | Except.error e => (GoSlice.nil, some e)
      | Except.ok st =>
        match rows.err with
        | some e => (GoSlice.nil, some e)
        | none => (derefAll st.heap st.rules, none)
    ⟨ret.1, ret.2, deferredClose rows err, 1⟩

/-! ## GetEvaluationDistributions -/

/-- Lines 140-148: each scanned row is a fresh `d`, whose address is appended;
a failed `rows.Scan` returns its error at once.  The pointers are never shared
nor written through, so the slice is modelled by the records pointed to. -/
def distributionsLoop {ω : Type} :
    List (Except GoError (DistributionRow ω)) → GoSlice (EvaluationDistribution ω) →
      Except GoError (GoSlice (EvaluationDistribution ω))
  | [], ds => Except.ok ds
  | Except.error e :: _, _ => Except.error e
  | Except.ok row :: rest, ds =>
    let d : EvaluationDistribution ω :=
      ⟨row.d_id, row.d_rule_id, row.d_variant_id, row.d_rollout, row.v_key⟩
    distributionsLoop rest (ds.append d)

/-- The function `EvaluationStore.GetEvaluationDistributions` (lines 120-156),
on the outcome of the `QueryContext` call of lines 123-127. -/
def GetEvaluationDistributions {ω : Type} (query : Except GoError (Rows (DistributionRow ω))) :
    Call (EvaluationDistribution ω) :=
  match query with
  | Except.error err => ⟨GoSlice.nil, some err, some err, 0⟩
  | Except.ok rows =>
    let err : Option GoError := none
    let ret : GoSlice (EvaluationDistribution ω) × Option GoError :=
      match distributionsLoop rows.items GoSlice.nil with
      | Except.error e => (GoSlice.nil, some e)
      | Except.ok ds =>
        match rows.err with
        | some e => (GoSlice.nil, some e)
        | none => (ds, none)
    ⟨ret.1, ret.2, deferredClose rows err, 1⟩

/-! ## Definitions for the proofs: the loop as a function of the rows read so far -/

/-- The constraint a row carries (meaningful when its constraint id is present). -/
def constraintOf (row : SqlRow) : EvaluationConstraint := mkConstraint (scanRow row).2

/-- The rule allocated for a row whose rule id is new (lines 88-105). -/
def newRuleOf (row : SqlRow) : EvaluationRule :=
  ⟨row.r_id, row.r_flag_key, row.r_segment_key, row.s_match_type, row.r_rank,
   if row.c_id.isSome then GoSlice.mk [constraintOf row] else GoSlice.nil⟩

/-- Line 84 on a rule. -/
def addConstraint (c : EvaluationConstraint) (R : EvaluationRule) : EvaluationRule :=
  { R with Constraints := R.Constraints.append c }

/-- The effect of the loop body on the rule objects, pointers forgotten. -/
def pureStep (rs : List EvaluationRule) (row : SqlRow) : List EvaluationRule :=
  if row.r_id ∈ rs.map EvaluationRule.ID then
    if row.c_id.isSome then
      rs.map fun R => if R.ID = row.r_id then addConstraint (constraintOf row) R else R
    else rs
  else rs ++ [newRuleOf row]

/-- The loop invariant on the memory: the slice points to the objects in
allocation order, the map sends exactly the ids of the objects to their
pointers, and no two objects share an id. -/
structure LoopState.WF (st : LoopState) : Prop where
  rules_eq : st.rules = GoSlice.mk (List.range st.heap.length)
  seen_eq : ∀ k, st.seenRules k =
    if k ∈ st.heap.map EvaluationRule.ID then
      some ((st.heap.map EvaluationRule.ID).indexOf k) else none
  nodup : (st.heap.map EvaluationRule.ID).Nodup

/-- The rule objects after the loop has read `rows`. -/
def flatten (rows : List SqlRow) : List EvaluationRule := rows.foldl pureStep []

/-- The slice built by appending the elements of a list, one by one, to the
nil slice. -/
def sliceOf {α : Type} : List α → GoSlice α
  | [] => GoSlice.nil
  | a :: l => GoSlice.mk (a :: l)

/-- The constraints of the rows with rule id `id` and a present constraint
id, in arrival order. -/
def constraintsOf (rows : List SqlRow) (id : String) : List EvaluationConstraint :=
  (rows.filter fun r => decide (r.r_id = id) && r.c_id.isSome).map constraintOf

/-- The rule with id `id` in closed form: rule fields of the first row with
that id, constraints of all the rows with that id. -/
def ruleOf (rows : List SqlRow) (id : String) : EvaluationRule :=
  match rows.find? fun r => decide (r.r_id = id) with
  | none => EvaluationRule.zero
  | some r =>
    ⟨r.r_id, r.r_flag_key, r.r_segment_key, r.s_match_type, r.r_rank,
     sliceOf (constraintsOf rows id)⟩

/-- The rows that carry a rule id for the first time, in arrival order. -/
def firstRows (rows : List SqlRow) : List SqlRow :=
  rows.foldl (fun acc r => if r.r_id ∈ acc.map SqlRow.r_id then acc else acc ++ [r]) []

/-- The rule fields of a rule: all but its constraints. -/
def ruleFields (R : EvaluationRule) : String × String × String × Int × Int :=
  (R.ID, R.FlagKey, R.SegmentKey, R.SegmentMatchType, R.Rank)

/-- The rule columns of a row. -/
def rowFields (r : SqlRow) : String × String × String × Int × Int :=
  (r.r_id, r.r_flag_key, r.r_segment_key, r.s_match_type, r.r_rank)

/-- The record `d` of lines 141-143 after a successful scan of a row. -/
def distributionOf {ω : Type} (row : DistributionRow ω) : EvaluationDistribution ω :=
  ⟨row.d_id, row.d_rule_id, row.d_variant_id, row.d_rollout, row.v_key⟩

/-! ## The row cursor as explicit state -/

/-- A method call on the cursor `rows`. -/
inductive CursorOp where
  | Next : CursorOp
  | Scan : CursorOp
  | Err : CursorOp
  | Close : CursorOp
deriving DecidableEq, Repr

/-- A row cursor (`*sql.Rows`) with its state: the rows not yet read, the row
the last `Next` moved to, what `rows.Err()` and `rows.Close()` will return,
whether the cursor is closed, and the method calls made on it so far, oldest
first. -/
structure Cursor (ρ : Type) where
  pending : List (Except GoError ρ)
  current : Option (Except GoError ρ)
  err : Option GoError
  closeErr : Option GoError
  closed : Bool
  calls : List CursorOp

/-- The cursor as a successful `QueryContext` hands it over: open, before its
first row, no method called yet. -/
def Cursor.opened {ρ : Type} (rows : Rows ρ) : Cursor ρ :=
  ⟨rows.items, none, rows.err, rows.closeErr, false, []⟩

/-- The method `rows.Next()`: false on a closed cursor or when no row is left,
else it moves to the next row. -/
def Cursor.Next {ρ : Type} (c : Cursor ρ) : Bool × Cursor ρ :=
  if c.closed then (false, { c with calls := c.calls ++ [CursorOp.Next] })
  else
    match c.pending with
    | [] => (false, { c with current := none, calls := c.calls ++ [CursorOp.Next] })
    | x :: rest =>
      (true, { c with pending := rest, current := some x, calls := c.calls ++ [CursorOp.Next] })

/-- The method `rows.Scan(...)`: the decoded columns of the current row, or the
decode error. -/
def Cursor.Scan {ρ : Type} (c : Cursor ρ) : Except GoError ρ × Cursor ρ :=
  (match c.current with
   | some x => x
   | none => Except.error "sql: Scan called without calling Next",
   { c with calls := c.calls ++ [CursorOp.Scan] })

/-- The method `rows.Err()`. -/
def Cursor.Err {ρ : Type} (c : Cursor ρ) : Option GoError × Cursor ρ :=
  (c.err, { c with calls := c.calls ++ [CursorOp.Err] })

/-- The method `rows.Close()`: the cursor is closed afterwards. -/
def Cursor.Close {ρ : Type} (c : Cursor ρ) : Option GoError × Cursor ρ :=
  (c.closeErr, { c with closed := true, calls := c.calls ++ [CursorOp.Close] })

/-- The loop `for rows.Next() ... rows.Scan(...) ... body` of lines 64-110 and
140-148, on the cursor: a failed `Scan` returns its error at once. -/
def scanLoop {ρ σ : Type} (body : σ → ρ → σ) (c : Cursor ρ) (s : σ) :
    Except GoError σ × Cursor ρ :=
  if _ : c.Next.1 = true then
    match c.Next.2.Scan.1 with
    | Except.error e => (Except.error e, c.Next.2.Scan.2)
    | Except.ok row => scanLoop body c.Next.2.Scan.2 (body s row)
  else (Except.ok s, c.Next.2)
termination_by c.pending.length
decreasing_by
  rename_i h
  have hlt : c.Next.2.pending.length < c.pending.length := by
    unfold Cursor.Next at h ⊢
    cases hc : c.closed with
    | true => simp [hc] at h
    | false =>
      cases hp : c.pending with
      | nil => simp [hc, hp] at h
      | cons x rest => simp [hc, hp]
  exact hlt

/-- The deferred function of lines 53-57 and 132-136 on the cursor: it calls
`rows.Close()` and, when that fails and the local `err` is nil, assigns the
failure to the local `err`. -/
def deferredCloseCursor {ρ : Type} (rows : Cursor ρ) (err : Option GoError) :
    Option GoError × Cursor ρ :=
  match rows.Close.1, err with
  | some cerr, none => (some cerr, rows.Close.2)
  | _, _ => (err, rows.Close.2)

/-- Lines 59-117 of `GetEvaluationRules` on the cursor: the two values of the
`return` statement reached, and the cursor at that point. -/
def rulesBody (rows : Cursor SqlRow) :
    (GoSlice EvaluationRule × Option GoError) × Cursor SqlRow :=
  match scanLoop loopBody rows LoopState.init with
  | (Except.error e, c) => ((GoSlice.nil, some e), c)
  | (Except.ok st, c) =>
    match c.Err.1 with
    | some e => ((GoSlice.nil, some e), c.Err.2)
    | none => ((derefAll st.heap st.rules, none), c.Err.2)

/-- The function `EvaluationStore.GetEvaluationRules` (lines 37-118) with the
cursor threaded through every method call on `rows`: what the call leaves
behind, and the cursor when the call returns, none when the query failed (the
call returns at line 50, before the `defer` statement).  The deferred function
runs after the `return` statement has fixed the two results. -/
def GetEvaluationRulesCursor (query : Except GoError (Rows SqlRow)) :
    Call EvaluationRule × Option (Cursor SqlRow) :=
  match query with
  | Except.error err => (⟨GoSlice.nil, some err, some err, 0⟩, none)
  | Except.ok opened =>
    let rows := Cursor.opened opened
    let err : Option GoError := none
    let ret := rulesBody rows
    let deferred := deferredCloseCursor ret.2 err
    (⟨ret.1.1, ret.1.2, deferred.1, deferred.2.calls.count CursorOp.Close⟩, some deferred.2)

/-- Lines 138-155 of `GetEvaluationDistributions` on the cursor: the two values
of the `return` statement reached, and the cursor at that point. -/
def distributionsBody {ω : Type} (rows : Cursor (DistributionRow ω)) :
    (GoSlice (EvaluationDistribution ω) × Option GoError) × Cursor (DistributionRow ω) :=
  match scanLoop
      (fun (ds : GoSlice (EvaluationDistribution ω)) (row : DistributionRow ω) =>
        ds.append ⟨row.d_id, row.d_rule_id, row.d_variant_id, row.d_rollout, row.v_key⟩)
      rows GoSlice.nil with
  | (Except.error e, c) => ((GoSlice.nil, some e), c)
  | (Except.ok ds, c) =>
    match c.Err.1 with
    | some e => ((GoSlice.nil, some e), c.Err.2)
    | none => ((ds, none), c.Err.2)

/-- The function `EvaluationStore.GetEvaluationDistributions` (lines 120-156)
with the cursor threaded through every method call on `rows`: what the call
leaves behind, and the cursor when the call returns, none when the query
failed (the call returns at line 129, before the `defer` statement). -/
def GetEvaluationDistributionsCursor {ω : Type}
    (query : Except GoError (Rows (DistributionRow ω))) :
    Call (EvaluationDistribution ω) × Option (Cursor (DistributionRow ω)) :=
  match query with
  | Except.error err => (⟨GoSlice.nil, some err, some err, 0⟩, none)
  | Except.ok opened =>
    let rows := Cursor.opened opened
    let err : Option GoError := none
    let ret := distributionsBody rows
    let deferred := deferredCloseCursor ret.2 err
    (⟨ret.1.1, ret.1.2, deferred.1, deferred.2.calls.count CursorOp.Close⟩, some deferred.2)

/-! ## Test data -/

/-- The rule of rank 1 of flag `new-feature`, with its first constraint. -/
def rowBeta1 : SqlRow :=
  ⟨"r1", "new-feature", "beta-users", 0, 1, some "c1", some 1, some "plan", some "eq",
   some "pro"⟩

/-- The rule of rank 2 of flag `new-feature`: its segment has no constraint. -/
def rowEveryone : SqlRow :=
  ⟨"r2", "new-feature", "everyone", 0, 2, none, none, none, none, none⟩

/-- The rule of rank 1 again, with a second constraint. -/
def rowBeta2 : SqlRow :=
  ⟨"r1", "new-feature", "beta-users", 0, 1, some "c2", some 1, some "region", some "eq",
   some "eu"⟩

/-- A later row with the id of rule r1 whose rule columns differ from those of
the first row of r1. -/
def rowBeta3 : SqlRow :=
  ⟨"r1", "other-flag", "gamma-users", 1, 7, some "c3", some 2, some "age", some "gt",
   some "18"⟩

/-- A row of rule r1 whose constraint id is present and whose other constraint
columns are NULL. -/
def rowBare : SqlRow :=
  ⟨"r1", "new-feature", "beta-users", 0, 1, some "c9", none, none, none, none⟩

/-- A cursor over rows that all decode, ending without error. -/
def cleanRows (rows : List SqlRow) (closeErr : Option GoError) :
    Except GoError (Rows SqlRow) :=
  Except.ok ⟨rows.map Except.ok, none, closeErr⟩

/-! ## The loop invariant and the memory -/

theorem modify_indexOf_eq_map (f : EvaluationRule → EvaluationRule) (k : String) :
    ∀ (l : List EvaluationRule), (l.map EvaluationRule.ID).Nodup →
      k ∈ l.map EvaluationRule.ID →
      l.modify f ((l.map EvaluationRule.ID).indexOf k)
        = l.map fun R => if R.ID = k then f R else R
  | [], _, h => by simp at h
  | R :: l, hnd, hk => by
    rw [List.map_cons, List.nodup_cons] at hnd
    by_cases hR : R.ID = k
    · have hnot : ∀ x ∈ l, ¬ x.ID = k := by
        intro x hx hxk
        exact hnd.1 (List.mem_map.2 ⟨x, hx, hxk.trans hR.symm⟩)
      have hmap : (l.map fun R => if R.ID = k then f R else R) = l := by
        conv_rhs => rw [← List.map_id l]
        exact List.map_congr_left fun x hx => by simp [hnot x hx]
      simp [List.indexOf_cons_eq _ hR, hR, hmap]
    · have hk2 : k ∈ l.map EvaluationRule.ID := by
        rw [List.map_cons, List.mem_cons] at hk
        rcases hk with h | h
        · exact absurd h.symm hR
        · exact h
      have ih := modify_indexOf_eq_map f k l hnd.2 hk2
      rw [List.map_cons, List.indexOf_cons_ne _ hR, List.modify_succ_cons, ih]
      simp [hR]

theorem LoopState.init_WF : LoopState.init.WF :=
  ⟨rfl, fun k => by simp [LoopState.init], by simp [LoopState.init]⟩

theorem scanRow_valid (row : SqlRow) : (scanRow row).2.ID.Valid = row.c_id.isSome := by
  cases h : row.c_id <;> simp [scanRow, NullString.Scan, h]

theorem scanRow_id (row : SqlRow) : (scanRow row).1.ID = row.r_id := rfl

theorem loopBody_heap (st : LoopState) (h : st.WF) (row : SqlRow) :
    (loopBody st row).heap = pureStep st.heap row := by
  unfold loopBody pureStep
  simp only [scanRow_id, scanRow_valid]
  have hs := h.seen_eq row.r_id
  by_cases hk : row.r_id ∈ st.heap.map EvaluationRule.ID
  · rw [if_pos hk] at hs
    rw [hs, if_pos hk]
    by_cases hv : row.c_id.isSome = true
    · simp only [hv, if_true]
      exact modify_indexOf_eq_map _ _ _ h.nodup hk
    · simp [hv]
  · rw [if_neg hk] at hs
    rw [hs, if_neg hk]
    by_cases hv : row.c_id.isSome = true
    · simp [hv, newRuleOf, GoSlice.append, GoSlice.toList, constraintOf, scanRow]
    · simp [hv, newRuleOf, scanRow]

theorem pureStep_ids (rs : List EvaluationRule) (row : SqlRow) :
    (pureStep rs row).map EvaluationRule.ID =
      if row.r_id ∈ rs.map EvaluationRule.ID then rs.map EvaluationRule.ID
      else rs.map EvaluationRule.ID ++ [row.r_id] := by
  unfold pureStep
  by_cases hk : row.r_id ∈ rs.map EvaluationRule.ID
  · rw [if_pos hk, if_pos hk]
    by_cases hv : row.c_id.isSome = true
    · rw [if_pos hv, List.map_map]
      apply List.map_congr_left
      intro R _
      by_cases hR : R.ID = row.r_id <;> simp [hR, addConstraint]
    · rw [if_neg hv]
  · rw [if_neg hk, if_neg hk]
    simp [newRuleOf]

theorem loopBody_WF (st : LoopState) (h : st.WF) (row : SqlRow) : (loopBody st row).WF := by
  have hheap := loopBody_heap st h row
  have hids := pureStep_ids st.heap row
  rw [← hheap] at hids
  have hs := h.seen_eq row.r_id
  by_cases hk : row.r_id ∈ st.heap.map EvaluationRule.ID
  · rw [if_pos hk] at hs hids
    have hrs : (loopBody st row).rules = st.rules ∧ (loopBody st row).seenRules = st.seenRules := by
      unfold loopBody
      simp only [scanRow_id, hs]
      split <;> simp
    have hlen : (loopBody st row).heap.length = st.heap.length := by
      have := congrArg List.length hids
      simpa using this
    refine ⟨?_, ?_, ?_⟩
    · rw [hrs.1, hlen]; exact h.rules_eq
    · intro k; rw [hrs.2, hids]; exact h.seen_eq k
    · rw [hids]; exact h.nodup
  · rw [if_neg hk] at hs hids
    have hrs : (loopBody st row).rules = st.rules.append st.heap.length ∧
        (loopBody st row).seenRules =
          fun k => if k = row.r_id then some st.heap.length else st.seenRules k := by
      unfold loopBody
      simp only [scanRow_id, hs]
      split <;> simp
    have hlen : (loopBody st row).heap.length = st.heap.length + 1 := by
      have := congrArg List.length hids
      simpa using this
    refine ⟨?_, ?_, ?_⟩
    · rw [hrs.1, hlen, h.rules_eq, List.range_succ]; rfl
    · intro k
      rw [hrs.2, hids]
      by_cases hkk : k = row.r_id
      · subst hkk
        simp [List.indexOf_append_of_not_mem hk]
      · have := h.seen_eq k
        by_cases hmem : k ∈ st.heap.map EvaluationRule.ID
        · simp only [hkk, if_false, this, hmem, if_true, List.mem_append, true_or,
            List.indexOf_append_of_mem hmem]
        · simp only [hkk, if_false, this, hmem, List.mem_append, List.mem_singleton, or_self]
    · rw [hids]
      exact List.Nodup.append h.nodup (List.nodup_singleton _) (by simpa using hk)

theorem rulesLoop_ok (rows : List SqlRow) :
    ∀ st, rulesLoop (rows.map Except.ok) st = Except.ok (rows.foldl loopBody st) := by
  induction rows with
  | nil => intro st; rfl
  | cons r rest ih => intro st; simp only [List.map_cons, rulesLoop, List.foldl_cons]; exact ih _

theorem foldl_loopBody (rows : List SqlRow) :
    ∀ st, st.WF → (rows.foldl loopBody st).WF ∧
      (rows.foldl loopBody st).heap = rows.foldl pureStep st.heap := by
  induction rows with
  | nil => intro st h; exact ⟨h, rfl⟩
  | cons r rest ih =>
    intro st h
    have := ih (loopBody st r) (loopBody_WF st h r)
    simp only [List.foldl_cons]
    rw [← loopBody_heap st h r]
    exact this

theorem derefAll_range (heap : List EvaluationRule) :
    derefAll heap (GoSlice.mk (List.range heap.length)) = GoSlice.mk heap := by
  simp only [derefAll]
  congr 1
  apply List.ext_getElem
  · simp
  · intro n h1 h2
    simp [List.getElem?_eq_getElem h2]

theorem loop_result (rows : List SqlRow) :
    derefAll (rows.foldl loopBody LoopState.init).heap (rows.foldl loopBody LoopState.init).rules
      = GoSlice.mk (flatten rows) := by
  have h := foldl_loopBody rows LoopState.init LoopState.init_WF
  rw [h.1.rules_eq, derefAll_range, h.2]
  rfl

/-- On a cursor whose rows all decode and that ends without error, the call
returns the flattened rules and no error, whatever closing the cursor does. -/
theorem GetEvaluationRules_ok (rows : List SqlRow) (ce : Option GoError) :
    GetEvaluationRules (Except.ok ⟨rows.map Except.ok, none, ce⟩)
      = ⟨GoSlice.mk (flatten rows), none, ce, 1⟩ := by
  simp only [GetEvaluationRules, rulesLoop_ok, loop_result, deferredClose]
  cases ce <;> rfl

theorem flatten_snoc (rows : List SqlRow) (r : SqlRow) :
    flatten (rows ++ [r]) = pureStep (flatten rows) r := by
  simp [flatten, List.foldl_append]

theorem flatten_ids_snoc (rows : List SqlRow) (r : SqlRow) :
    (flatten (rows ++ [r])).map EvaluationRule.ID =
      if r.r_id ∈ (flatten rows).map EvaluationRule.ID then (flatten rows).map EvaluationRule.ID
      else (flatten rows).map EvaluationRule.ID ++ [r.r_id] := by
  rw [flatten_snoc, pureStep_ids]

theorem mem_flatten_ids (rows : List SqlRow) (k : String) :
    k ∈ (flatten rows).map EvaluationRule.ID ↔ k ∈ rows.map SqlRow.r_id := by
  revert k
  induction rows using List.reverseRecOn with
  | nil => simp [flatten]
  | append_singleton l r ih =>
    intro k
    rw [flatten_ids_snoc]
    by_cases hr : r.r_id ∈ (flatten l).map EvaluationRule.ID
    · rw [if_pos hr, ih, List.map_append, List.mem_append]
      constructor
      · exact Or.inl
      · rintro (h | h)
        · exact h
        · simp at h; rw [h, ← ih]; exact hr
    · rw [if_neg hr, List.mem_append, ih, List.map_append, List.mem_append]
      simp

theorem flatten_ids_nodup (rows : List SqlRow) :
    ((flatten rows).map EvaluationRule.ID).Nodup := by
  induction rows using List.reverseRecOn with
  | nil => simp [flatten]
  | append_singleton l r ih =>
    rw [flatten_ids_snoc]
    by_cases hr : r.r_id ∈ (flatten l).map EvaluationRule.ID
    · rw [if_pos hr]; exact ih
    · rw [if_neg hr]
      exact List.Nodup.append ih (List.nodup_singleton _) (by simpa using hr)

theorem flatten_ids_order (rows : List SqlRow) (a b : String)
    (ha : a ∈ rows.map SqlRow.r_id) (hb : b ∈ rows.map SqlRow.r_id) :
    (((flatten rows).map EvaluationRule.ID).indexOf a
        < ((flatten rows).map EvaluationRule.ID).indexOf b
      ↔ (rows.map SqlRow.r_id).indexOf a < (rows.map SqlRow.r_id).indexOf b) := by
  induction rows using List.reverseRecOn with
  | nil => simp at ha
  | append_singleton l r ih =>
    rw [flatten_ids_snoc, List.map_append, List.map_cons, List.map_nil]
    have key : ∀ x, x ∈ l.map SqlRow.r_id →
        ((flatten l).map EvaluationRule.ID ++ [r.r_id]).indexOf x
            = ((flatten l).map EvaluationRule.ID).indexOf x ∧
          (l.map SqlRow.r_id ++ [r.r_id]).indexOf x = (l.map SqlRow.r_id).indexOf x := by
      intro x hx
      exact ⟨List.indexOf_append_of_mem ((mem_flatten_ids l x).2 hx),
        List.indexOf_append_of_mem hx⟩
    by_cases hr : r.r_id ∈ (flatten l).map EvaluationRule.ID
    · have hr2 := (mem_flatten_ids l _).1 hr
      have fix : ∀ x, x ∈ (l ++ [r]).map SqlRow.r_id → x ∈ l.map SqlRow.r_id := by
        intro x hx
        rw [List.map_append, List.mem_append] at hx
        rcases hx with h | h
        · exact h
        · simp at h; rw [h]; exact hr2
      rw [if_pos hr, (key a (fix a ha)).2, (key b (fix b hb)).2]
      exact ih (fix a ha) (fix b hb)
    · have hr2 : r.r_id ∉ l.map SqlRow.r_id := fun h => hr ((mem_flatten_ids l _).2 h)
      rw [if_neg hr]
      have split : ∀ x, x ∈ (l ++ [r]).map SqlRow.r_id → x ∈ l.map SqlRow.r_id ∨ x = r.r_id := by
        intro x hx
        rw [List.map_append, List.mem_append] at hx
        rcases hx with h | h
        · exact Or.inl h
        · simp at h; exact Or.inr h
      have new1 : ((flatten l).map EvaluationRule.ID ++ [r.r_id]).indexOf r.r_id
          = ((flatten l).map EvaluationRule.ID).length := by
        rw [List.indexOf_append_of_not_mem hr]; simp
      have new2 : (l.map SqlRow.r_id ++ [r.r_id]).indexOf r.r_id = (l.map SqlRow.r_id).length := by
        rw [List.indexOf_append_of_not_mem hr2]; simp
      rcases split a ha with ha1 | ha1 <;> rcases split b hb with hb1 | hb1
      · rw [(key a ha1).1, (key a ha1).2, (key b hb1).1, (key b hb1).2]; exact ih ha1 hb1
      · subst hb1
        rw [(key a ha1).1, (key a ha1).2, new1, new2]
        have h1 := List.indexOf_lt_length.2 ((mem_flatten_ids l a).2 ha1)
        have h2 := List.indexOf_lt_length.2 ha1
        exact ⟨fun _ => h2, fun _ => h1⟩
      · subst ha1
        rw [(key b hb1).1, (key b hb1).2, new1, new2]
        have h1 := List.indexOf_lt_length.2 ((mem_flatten_ids l b).2 hb1)
        have h2 := List.indexOf_lt_length.2 hb1
        exact ⟨fun h => absurd h (by omega), fun h => absurd h (by omega)⟩
      · subst ha1; subst hb1
        simp

/-! ## Lemmas: each rule in closed form -/

theorem sliceOf_toList {α : Type} (l : List α) : (sliceOf l).toList = l := by
  cases l <;> rfl

theorem sliceOf_snoc {α : Type} (l : List α) (c : α) :
    sliceOf (l ++ [c]) = (sliceOf l).append c := by
  cases l <;> rfl

theorem constraintsOf_snoc (rows : List SqlRow) (r : SqlRow) (id : String) :
    constraintsOf (rows ++ [r]) id =
      constraintsOf rows id ++
        (if r.r_id = id ∧ r.c_id.isSome = true then [constraintOf r] else []) := by
  unfold constraintsOf
  rw [List.filter_append, List.map_append]
  congr 1
  by_cases h : r.r_id = id ∧ r.c_id.isSome = true
  · rw [if_pos h]; simp [List.filter, h.1, h.2]
  · rw [if_neg h]
    have : (decide (r.r_id = id) && r.c_id.isSome) = false := by
      by_cases h1 : r.r_id = id
      · have h2 : ¬ r.c_id.isSome = true := fun h2 => h ⟨h1, h2⟩
        simp [h1, h2]
      · simp [h1]
    simp [List.filter, this]

theorem find_isSome_of_mem (rows : List SqlRow) (id : String) (h : id ∈ rows.map SqlRow.r_id) :
    ∃ r0, rows.find? (fun r => decide (r.r_id = id)) = some r0 ∧ r0.r_id = id := by
  rcases List.mem_map.1 h with ⟨x, hx, hxid⟩
  cases hf : rows.find? (fun r => decide (r.r_id = id)) with
  | none =>
    rw [List.find?_eq_none] at hf
    exact absurd (by simpa using hxid) (hf x hx)
  | some r0 =>
    exact ⟨r0, rfl, by simpa using List.find?_some hf⟩

theorem find_none_of_not_mem (rows : List SqlRow) (id : String)
    (h : id ∉ rows.map SqlRow.r_id) :
    rows.find? (fun r => decide (r.r_id = id)) = none := by
  rw [List.find?_eq_none]
  intro x hx hxid
  exact h (List.mem_map.2 ⟨x, hx, by simpa using hxid⟩)

theorem ruleOf_id (rows : List SqlRow) (id : String) (h : id ∈ rows.map SqlRow.r_id) :
    (ruleOf rows id).ID = id := by
  rcases find_isSome_of_mem rows id h with ⟨r0, hf, hid⟩
  simp [ruleOf, hf, hid]

theorem ruleOf_snoc_mem (rows : List SqlRow) (r : SqlRow) (id : String)
    (h : id ∈ rows.map SqlRow.r_id) :
    ruleOf (rows ++ [r]) id =
      if r.r_id = id ∧ r.c_id.isSome = true then addConstraint (constraintOf r) (ruleOf rows id)
      else ruleOf rows id := by
  rcases find_isSome_of_mem rows id h with ⟨r0, hf, _⟩
  have hf2 : (rows ++ [r]).find? (fun r => decide (r.r_id = id)) = some r0 := by
    rw [List.find?_append, hf]; rfl
  unfold ruleOf
  rw [hf, hf2, constraintsOf_snoc]
  by_cases hc : r.r_id = id ∧ r.c_id.isSome = true
  · simp only [hc, and_self, if_true, addConstraint, sliceOf_snoc]
  · simp only [hc, if_false, List.append_nil]

theorem ruleOf_snoc_new (rows : List SqlRow) (r : SqlRow)
    (h : r.r_id ∉ rows.map SqlRow.r_id) :
    ruleOf (rows ++ [r]) r.r_id = newRuleOf r := by
  have hf := find_none_of_not_mem rows r.r_id h
  have hf2 : (rows ++ [r]).find? (fun x => decide (x.r_id = r.r_id)) = some r := by
    rw [List.find?_append, hf]; simp [List.find?]
  have hc : constraintsOf rows r.r_id = [] := by
    unfold constraintsOf
    rw [List.map_eq_nil_iff, List.filter_eq_nil_iff]
    intro x hx hxid
    exact h (List.mem_map.2 ⟨x, hx, by simp at hxid; exact hxid.1⟩)
  unfold ruleOf
  rw [hf2, constraintsOf_snoc, hc]
  by_cases hv : r.c_id.isSome = true
  · simp [hv, newRuleOf, sliceOf]
  · simp [hv, newRuleOf, sliceOf]

/-- Every rule the loop has built is the closed form of its id. -/
theorem flatten_mem (rows : List SqlRow) :
    ∀ R, R ∈ flatten rows → R = ruleOf rows R.ID := by
  induction rows using List.reverseRecOn with
  | nil => intro R h; simp [flatten] at h
  | append_singleton l r ih =>
    intro R hR
    have hid : ∀ R0, R0 ∈ flatten l → R0.ID ∈ l.map SqlRow.r_id := fun R0 h0 =>
      (mem_flatten_ids l _).1 (List.mem_map.2 ⟨R0, h0, rfl⟩)
    rw [flatten_snoc] at hR
    unfold pureStep at hR
    by_cases hk : r.r_id ∈ (flatten l).map EvaluationRule.ID
    · rw [if_pos hk] at hR
      by_cases hv : r.c_id.isSome = true
      · rw [if_pos hv, List.mem_map] at hR
        rcases hR with ⟨R0, h0, hg⟩
        have e0 := ih R0 h0
        by_cases hR0 : R0.ID = r.r_id
        · rw [if_pos hR0] at hg
          subst hg
          have : (addConstraint (constraintOf r) R0).ID = R0.ID := rfl
          rw [this, ruleOf_snoc_mem l r _ (hid R0 h0), if_pos ⟨hR0.symm, hv⟩, ← e0]
        · rw [if_neg hR0] at hg
          subst hg
          rw [ruleOf_snoc_mem l r _ (hid R0 h0), if_neg (fun h => hR0 h.1.symm), ← e0]
      · rw [if_neg hv] at hR
        rw [ruleOf_snoc_mem l r _ (hid R hR), if_neg (fun h => hv h.2)]
        exact ih R hR
    · rw [if_neg hk, List.mem_append] at hR
      rcases hR with hR | hR
      · have hne : ¬ r.r_id = R.ID := fun h => hk (h ▸ List.mem_map.2 ⟨R, hR, rfl⟩)
        rw [ruleOf_snoc_mem l r _ (hid R hR), if_neg (fun h => hne h.1)]
        exact ih R hR
      · simp at hR
        subst hR
        have : (newRuleOf r).ID = r.r_id := rfl
        rw [this, ruleOf_snoc_new l r (fun h => hk ((mem_flatten_ids l _).2 h))]

/-- The rules in closed form: one per distinct rule id. -/
theorem flatten_eq_map_ruleOf (rows : List SqlRow) :
    flatten rows = ((flatten rows).map EvaluationRule.ID).map (ruleOf rows) := by
  rw [List.map_map]
  conv_lhs => rw [← List.map_id (flatten rows)]
  exact List.map_congr_left fun R hR => by simpa using flatten_mem rows R hR

/-! ## Lemmas: the rows that introduce a rule -/

theorem firstRows_snoc (rows : List SqlRow) (r : SqlRow) :
    firstRows (rows ++ [r]) =
      if r.r_id ∈ (firstRows rows).map SqlRow.r_id then firstRows rows
      else firstRows rows ++ [r] := by
  simp [firstRows, List.foldl_append]

theorem firstRows_sublist (rows : List SqlRow) : (firstRows rows).Sublist rows := by
  induction rows using List.reverseRecOn with
  | nil => simp [firstRows]
  | append_singleton l r ih =>
    rw [firstRows_snoc]
    split
    · exact ih.trans (List.sublist_append_left l [r])
    · exact List.Sublist.append ih (List.Sublist.refl [r])

theorem pureStep_fields (rs : List EvaluationRule) (row : SqlRow) :
    (pureStep rs row).map ruleFields =
      if row.r_id ∈ rs.map EvaluationRule.ID then rs.map ruleFields
      else rs.map ruleFields ++ [rowFields row] := by
  unfold pureStep
  by_cases hk : row.r_id ∈ rs.map EvaluationRule.ID
  · rw [if_pos hk, if_pos hk]
    by_cases hv : row.c_id.isSome = true
    · rw [if_pos hv, List.map_map]
      apply List.map_congr_left
      intro R _
      by_cases hR : R.ID = row.r_id <;> simp [hR, addConstraint, ruleFields]
    · rw [if_neg hv]
  · rw [if_neg hk, if_neg hk]
    simp [newRuleOf, ruleFields, rowFields]

theorem map_fst_ruleFields (rs : List EvaluationRule) :
    (rs.map ruleFields).map Prod.fst = rs.map EvaluationRule.ID := by
  rw [List.map_map]; rfl

theorem map_fst_rowFields (rows : List SqlRow) :
    (rows.map rowFields).map Prod.fst = rows.map SqlRow.r_id := by
  rw [List.map_map]; rfl

/-- The rule fields of the rules built are the rule columns of the rows that
introduce a rule id. -/
theorem flatten_fields (rows : List SqlRow) :
    (flatten rows).map ruleFields = (firstRows rows).map rowFields := by
  induction rows using List.reverseRecOn with
  | nil => simp [flatten, firstRows]
  | append_singleton l r ih =>
    have hids : (flatten l).map EvaluationRule.ID = (firstRows l).map SqlRow.r_id := by
      rw [← map_fst_ruleFields, ih, map_fst_rowFields]
    rw [flatten_snoc, pureStep_fields, firstRows_snoc, hids]
    split
    · exact ih
    · rw [List.map_append, ih]; rfl

theorem flatten_ranks (rows : List SqlRow) :
    (flatten rows).map EvaluationRule.Rank = (firstRows rows).map SqlRow.r_rank := by
  have h := congrArg (List.map fun p : String × String × String × Int × Int => p.2.2.2.2)
    (flatten_fields rows)
  simpa [List.map_map, Function.comp_def, ruleFields, rowFields] using h

theorem flatten_id_ranks (rows : List SqlRow) :
    (flatten rows).map (fun R => (R.ID, R.Rank)) =
      (firstRows rows).map (fun r => (r.r_id, r.r_rank)) := by
  have h := congrArg (List.map fun p : String × String × String × Int × Int => (p.1, p.2.2.2.2))
    (flatten_fields rows)
  simpa [List.map_map, Function.comp_def, ruleFields, rowFields] using h

theorem flatten_ranks_sorted (rows : List SqlRow)
    (h : (rows.map SqlRow.r_rank).Sorted (· ≤ ·)) :
    ((flatten rows).map EvaluationRule.Rank).Sorted (· ≤ ·) := by
  rw [flatten_ranks]
  exact List.Pairwise.sublist ((firstRows_sublist rows).map SqlRow.r_rank) h

/-- When the rows carry exactly the rules `ranked` (distinct ids, strictly
increasing ranks) and arrive by rank, the rules built are `ranked`. -/
theorem flatten_eq_ranked (rows : List SqlRow) (ranked : List (String × Int))
    (hsorted : (rows.map SqlRow.r_rank).Sorted (· ≤ ·))
    (hids : (ranked.map Prod.fst).Nodup)
    (hranks : (ranked.map Prod.snd).Sorted (· < ·))
    (hrows : ∀ r ∈ rows, (r.r_id, r.r_rank) ∈ ranked)
    (hall : ∀ p ∈ ranked, p.1 ∈ rows.map SqlRow.r_id) :
    (flatten rows).map (fun R => (R.ID, R.Rank)) = ranked := by
  have hP1 : ((flatten rows).map (fun R => (R.ID, R.Rank))).map Prod.fst
      = (flatten rows).map EvaluationRule.ID := by rw [List.map_map]; rfl
  have hP2 : ((flatten rows).map (fun R => (R.ID, R.Rank))).map Prod.snd
      = (flatten rows).map EvaluationRule.Rank := by rw [List.map_map]; rfl
  have hsub : ∀ p, p ∈ (flatten rows).map (fun R => (R.ID, R.Rank)) → p ∈ ranked := by
    intro p hp
    rw [flatten_id_ranks, List.mem_map] at hp
    rcases hp with ⟨r, hr, rfl⟩
    exact hrows r ((firstRows_sublist rows).subset hr)
  have hPnd : ((flatten rows).map (fun R => (R.ID, R.Rank))).Nodup :=
    List.Nodup.of_map Prod.fst (by rw [hP1]; exact flatten_ids_nodup rows)
  have hsup : ∀ p, p ∈ ranked → p ∈ (flatten rows).map (fun R => (R.ID, R.Rank)) := by
    intro p hp
    have h1 : p.1 ∈ (flatten rows).map EvaluationRule.ID :=
      (mem_flatten_ids rows p.1).2 (hall p hp)
    rw [← hP1, List.mem_map] at h1
    rcases h1 with ⟨q, hq, hqp⟩
    have : q = p := List.inj_on_of_nodup_map hids (hsub q hq) hp hqp
    exact this ▸ hq
  have hperm : List.Perm ((flatten rows).map (fun R => (R.ID, R.Rank))) ranked :=
    (List.perm_ext_iff_of_nodup hPnd (List.Nodup.of_map Prod.fst hids)).2
      fun p => ⟨hsub p, hsup p⟩
  have hsndnd : (((flatten rows).map (fun R => (R.ID, R.Rank))).map Prod.snd).Nodup :=
    ((hperm.map Prod.snd).nodup_iff).2 hranks.nodup
  have hlt1 : (((flatten rows).map (fun R => (R.ID, R.Rank))).map Prod.snd).Sorted (· < ·) :=
    List.Sorted.lt_of_le (by rw [hP2]; exact flatten_ranks_sorted rows hsorted) hsndnd
  have e1 : ((flatten rows).map (fun R => (R.ID, R.Rank))).Sorted (fun a b => a.2 < b.2) :=
    List.pairwise_map.1 hlt1
  have e2 : ranked.Sorted (fun a b => a.2 < b.2) := List.pairwise_map.1 hranks
  haveI : IsAntisymm (String × Int) (fun a b => a.2 < b.2) :=
    ⟨fun a b h1 h2 => absurd h1 (not_lt_of_gt h2)⟩
  exact List.eq_of_perm_of_sorted hperm e1 e2

/-- The constraints of a rule built: those of the rows with its id and a
present constraint id; the nil slice when there is none. -/
theorem flatten_constraints (rows : List SqlRow) (R : EvaluationRule) (hR : R ∈ flatten rows) :
    R.Constraints = sliceOf (constraintsOf rows R.ID) := by
  have h := flatten_mem rows R hR
  have hid := (mem_flatten_ids rows R.ID).1 (List.mem_map.2 ⟨R, hR, rfl⟩)
  rcases find_isSome_of_mem rows R.ID hid with ⟨r0, hf, _⟩
  conv_lhs => rw [h]
  simp [ruleOf, hf]

theorem constraintOf_id (r : SqlRow) (x : String) (h : r.c_id = some x) :
    (constraintOf r).ID = x := by
  simp [constraintOf, mkConstraint, scanRow, NullString.Scan, h]

theorem constraintsOf_ids_nodup (rows : List SqlRow) (id : String)
    (hdistinct : ((rows.filter fun r => r.c_id.isSome).map fun r => (r.r_id, r.c_id)).Nodup) :
    ((constraintsOf rows id).map EvaluationConstraint.ID).Nodup := by
  unfold constraintsOf
  rw [← List.filter_filter]
  have hsub : (((rows.filter fun r => r.c_id.isSome).filter fun r => decide (r.r_id = id)).map
      fun r => (r.r_id, r.c_id)).Nodup :=
    List.Nodup.sublist (List.Sublist.map _ (List.filter_sublist _)) hdistinct
  rw [List.map_map]
  refine List.Nodup.map_on ?_ (List.Nodup.of_map _ hsub)
  intro x hx y hy hxy
  apply List.inj_on_of_nodup_map hsub hx hy
  rw [List.mem_filter, List.mem_filter] at hx hy
  have hx1 : x.r_id = id := by simpa using hx.2
  have hy1 : y.r_id = id := by simpa using hy.2
  rcases Option.isSome_iff_exists.1 hx.1.2 with ⟨cx, hcx⟩
  rcases Option.isSome_iff_exists.1 hy.1.2 with ⟨cy, hcy⟩
  simp only [Function.comp_apply, constraintOf_id x cx hcx, constraintOf_id y cy hcy] at hxy
  simp [hx1, hy1, hcx, hcy, hxy]

/-! ## Lemmas: failures and the distributions loop -/

theorem rulesLoop_decode_error (pre : List SqlRow) (e : GoError)
    (rest : List (Except GoError SqlRow)) :
    ∀ st, rulesLoop (pre.map Except.ok ++ Except.error e :: rest) st = Except.error e := by
  induction pre with
  | nil => intro st; rfl
  | cons r pre ih => intro st; simp only [List.map_cons, List.cons_append, rulesLoop]; exact ih _

theorem distributionsLoop_ok {ω : Type} (rows : List (DistributionRow ω)) :
    ∀ ds, ∃ out, distributionsLoop (rows.map Except.ok) ds = Except.ok out ∧
      out.toList = ds.toList ++ rows.map distributionOf ∧ (rows = [] → out = ds) := by
  induction rows with
  | nil => intro ds; exact ⟨ds, rfl, by simp, fun _ => rfl⟩
  | cons r rows ih =>
    intro ds
    rcases ih (ds.append (distributionOf r)) with ⟨out, h1, h2, _⟩
    refine ⟨out, ?_, ?_, ?_⟩
    · simpa only [List.map_cons, distributionsLoop] using h1
    · rw [h2]; simp [GoSlice.append, GoSlice.toList]
    · intro h; simp at h

theorem distributionsLoop_decode_error {ω : Type} (pre : List (DistributionRow ω)) (e : GoError)
    (rest : List (Except GoError (DistributionRow ω))) :
    ∀ ds, distributionsLoop (pre.map Except.ok ++ Except.error e :: rest) ds
      = Except.error e := by
  induction pre with
  | nil => intro ds; rfl
  | cons r pre ih =>
    intro ds; simp only [List.map_cons, List.cons_append, distributionsLoop]; exact ih _

/-! ## Lemmas: the calls on the cursor -/

theorem scanLoop_nil {ρ σ : Type} (body : σ → ρ → σ) (c : Cursor ρ) (s : σ)
    (hp : c.pending = []) (hc : c.closed = false) :
    scanLoop body c s =
      (Except.ok s, { c with current := none, calls := c.calls ++ [CursorOp.Next] }) := by
  rw [scanLoop]
  simp [Cursor.Next, hp, hc]

theorem scanLoop_error {ρ σ : Type} (body : σ → ρ → σ) (c : Cursor ρ) (s : σ) (e : GoError)
    (rest : List (Except GoError ρ)) (hp : c.pending = Except.error e :: rest)
    (hc : c.closed = false) :
    scanLoop body c s =
      (Except.error e,
       { c with pending := rest, current := some (Except.error e),
                calls := c.calls ++ [CursorOp.Next] ++ [CursorOp.Scan] }) := by
  rw [scanLoop]
  simp [Cursor.Next, Cursor.Scan, hp, hc]

theorem scanLoop_ok {ρ σ : Type} (body : σ → ρ → σ) (c : Cursor ρ) (s : σ) (row : ρ)
    (rest : List (Except GoError ρ)) (hp : c.pending = Except.ok row :: rest)
    (hc : c.closed = false) :
    scanLoop body c s =
      scanLoop body
        { c with pending := rest, current := some (Except.ok row),
                 calls := c.calls ++ [CursorOp.Next] ++ [CursorOp.Scan] }
        (body s row) := by
  rw [scanLoop]
  simp [Cursor.Next, Cursor.Scan, hp, hc]

/-- The loop on an open cursor computes what the loop on the list of its
pending rows computes, leaves the cursor open, and calls no `Close`. -/
theorem scanLoop_spec {ρ σ : Type} (body : σ → ρ → σ)
    (L : List (Except GoError ρ) → σ → Except GoError σ)
    (hnil : ∀ s, L [] s = Except.ok s)
    (herr : ∀ e rest s, L (Except.error e :: rest) s = Except.error e)
    (hok : ∀ row rest s, L (Except.ok row :: rest) s = L rest (body s row)) :
    ∀ (items : List (Except GoError ρ)) (c : Cursor ρ) (s : σ),
      c.pending = items → c.closed = false →
      (scanLoop body c s).1 = L items s ∧
      (scanLoop body c s).2.closed = false ∧
      (scanLoop body c s).2.err = c.err ∧
      (scanLoop body c s).2.closeErr = c.closeErr ∧
      ∃ more, (scanLoop body c s).2.calls = c.calls ++ more ∧ CursorOp.Close ∉ more := by
  intro items
  induction items with
  | nil =>
    intro c s hp hc
    rw [scanLoop_nil body c s hp hc, hnil]
    exact ⟨rfl, hc, rfl, rfl, [CursorOp.Next], rfl, by simp⟩
  | cons x rest ih =>
    intro c s hp hc
    cases x with
    | error e =>
      rw [scanLoop_error body c s e rest hp hc, herr]
      exact ⟨rfl, hc, rfl, rfl, [CursorOp.Next] ++ [CursorOp.Scan],
        by simp [List.append_assoc], by simp⟩
    | ok row =>
      rw [scanLoop_ok body c s row rest hp hc, hok]
      rcases ih
        { c with pending := rest, current := some (Except.ok row),
                 calls := c.calls ++ [CursorOp.Next] ++ [CursorOp.Scan] }
        (body s row) rfl hc with ⟨h1, h2, h3, h4, more, h5, h6⟩
      refine ⟨h1, h2, h3, h4, [CursorOp.Next] ++ [CursorOp.Scan] ++ more, ?_, ?_⟩
      · rw [h5]; simp [List.append_assoc]
      · simpa using h6

theorem deferredCloseCursor_spec {ρ : Type} (c : Cursor ρ) (rows : Rows ρ)
    (hce : c.closeErr = rows.closeErr) :
    (deferredCloseCursor c none).1 = deferredClose rows none ∧
    (deferredCloseCursor c none).2.closed = true ∧
    (deferredCloseCursor c none).2.calls = c.calls ++ [CursorOp.Close] := by
  unfold deferredCloseCursor deferredClose Cursor.Close
  rw [← hce]
  cases c.closeErr <;> exact ⟨rfl, rfl, rfl⟩

theorem count_close_snoc (before : List CursorOp) (h : CursorOp.Close ∉ before) :
    (before ++ [CursorOp.Close]).count CursorOp.Close = 1 := by
  rw [List.count_append, List.count_eq_zero_of_not_mem h]
  rfl

theorem rulesBody_spec (rows : Rows SqlRow) :
    (rulesBody (Cursor.opened rows)).1 =
      (match rulesLoop rows.items LoopState.init with
       | Except.error e => (GoSlice.nil, some e)
       | Except.ok st =>
         match rows.err with
         | some e => (GoSlice.nil, some e)
         | none => (derefAll st.heap st.rules, none)) ∧
    (rulesBody (Cursor.opened rows)).2.closed = false ∧
    (rulesBody (Cursor.opened rows)).2.closeErr = rows.closeErr ∧
    CursorOp.Close ∉ (rulesBody (Cursor.opened rows)).2.calls := by
  rcases scanLoop_spec loopBody rulesLoop (fun _ => rfl) (fun _ _ _ => rfl) (fun _ _ _ => rfl)
    rows.items (Cursor.opened rows) LoopState.init rfl rfl with ⟨h1, h2, h3, h4, more, h5, h6⟩
  unfold rulesBody
  generalize scanLoop loopBody (Cursor.opened rows) LoopState.init = out at h1 h2 h3 h4 h5
  rcases out with ⟨res, c⟩
  simp only at h1 h2 h3 h4 h5
  have h3 : c.err = rows.err := h3
  have h4 : c.closeErr = rows.closeErr := h4
  have h5 : c.calls = more := by simpa [Cursor.opened] using h5
  rw [← h1]
  cases res with
  | error e => exact ⟨rfl, h2, h4, by rw [h5]; exact h6⟩
  | ok st =>
    simp only [Cursor.Err, h3]
    cases rows.err with
    | some e => exact ⟨rfl, h2, h4, by simp [h5, h6]⟩
    | none => exact ⟨rfl, h2, h4, by simp [h5, h6]⟩

theorem distributionsBody_spec {ω : Type} (rows : Rows (DistributionRow ω)) :
    (distributionsBody (Cursor.opened rows)).1 =
      (match distributionsLoop rows.items GoSlice.nil with
       | Except.error e => (GoSlice.nil, some e)
       | Except.ok ds =>
         match rows.err with
         | some e => (GoSlice.nil, some e)
         | none => (ds, none)) ∧
    (distributionsBody (Cursor.opened rows)).2.closed = false ∧
    (distributionsBody (Cursor.opened rows)).2.closeErr = rows.closeErr ∧
    CursorOp.Close ∉ (distributionsBody (Cursor.opened rows)).2.calls := by
  rcases scanLoop_spec
    (fun (ds : GoSlice (EvaluationDistribution ω)) (row : DistributionRow ω) =>
      ds.append ⟨row.d_id, row.d_rule_id, row.d_variant_id, row.d_rollout, row.v_key⟩)
    distributionsLoop (fun _ => rfl) (fun _ _ _ => rfl) (fun _ _ _ => rfl)
    rows.items (Cursor.opened rows) GoSlice.nil rfl rfl with ⟨h1, h2, h3, h4, more, h5, h6⟩
  unfold distributionsBody
  generalize scanLoop
    (fun (ds : GoSlice (EvaluationDistribution ω)) (row : DistributionRow ω) =>
      ds.append ⟨row.d_id, row.d_rule_id, row.d_variant_id, row.d_rollout, row.v_key⟩)
    (Cursor.opened rows) GoSlice.nil = out at h1 h2 h3 h4 h5
  rcases out with ⟨res, c⟩
  simp only at h1 h2 h3 h4 h5
  have h3 : c.err = rows.err := h3
  have h4 : c.closeErr = rows.closeErr := h4
  have h5 : c.calls = more := by simpa [Cursor.opened] using h5
  rw [← h1]
  cases res with
  | error e => exact ⟨rfl, h2, h4, by rw [h5]; exact h6⟩
  | ok st =>
    simp only [Cursor.Err, h3]
    cases rows.err with
    | some e => exact ⟨rfl, h2, h4, by simp [h5, h6]⟩
    | none => exact ⟨rfl, h2, h4, by simp [h5, h6]⟩

/-! ## Lemmas: counting constraints -/

theorem addConstraint_len (c : EvaluationConstraint) (R : EvaluationRule) :
    (addConstraint c R).Constraints.len = R.Constraints.len + 1 := by
  simp [addConstraint, GoSlice.append, GoSlice.len, GoSlice.toList]

theorem sum_len_map_addConstraint (c : EvaluationConstraint) (k : String) :
    ∀ rs : List EvaluationRule, (rs.map EvaluationRule.ID).Nodup →
      k ∈ rs.map EvaluationRule.ID →
      ((rs.map fun R => if R.ID = k then addConstraint c R else R).map
          fun R => R.Constraints.len).sum
        = (rs.map fun R => R.Constraints.len).sum + 1
  | [], _, h => by simp at h
  | R :: rs, hnd, hk => by
    rw [List.map_cons, List.nodup_cons] at hnd
    by_cases hR : R.ID = k
    · have hnot : ∀ x ∈ rs, ¬ x.ID = k := by
        intro x hx hxk
        exact hnd.1 (List.mem_map.2 ⟨x, hx, hxk.trans hR.symm⟩)
      have hmap : (rs.map fun R => if R.ID = k then addConstraint c R else R) = rs := by
        conv_rhs => rw [← List.map_id rs]
        exact List.map_congr_left fun x hx => by simp [hnot x hx]
      simp only [List.map_cons, hR, if_true, hmap, List.sum_cons, addConstraint_len]
      omega
    · have hk2 : k ∈ rs.map EvaluationRule.ID := by
        rw [List.map_cons, List.mem_cons] at hk
        rcases hk with h | h
        · exact absurd h.symm hR
        · exact h
      have ih := sum_len_map_addConstraint c k rs hnd.2 hk2
      simp only [List.map_cons, hR, if_false, List.sum_cons, ih]
      omega

theorem pureStep_total (rs : List EvaluationRule) (row : SqlRow)
    (hnd : (rs.map EvaluationRule.ID).Nodup) :
    ((pureStep rs row).map fun R => R.Constraints.len).sum
      = (rs.map fun R => R.Constraints.len).sum + (if row.c_id.isSome then 1 else 0) := by
  unfold pureStep
  by_cases hk : row.r_id ∈ rs.map EvaluationRule.ID
  · rw [if_pos hk]
    by_cases hv : row.c_id.isSome = true
    · rw [if_pos hv, if_pos hv]
      exact sum_len_map_addConstraint _ _ rs hnd hk
    · rw [if_neg hv, if_neg hv]; rfl
  · rw [if_neg hk]
    by_cases hv : row.c_id.isSome = true
    · simp [hv, newRuleOf, GoSlice.len, GoSlice.toList]
    · simp [hv, newRuleOf, GoSlice.len, GoSlice.toList]

theorem flatten_total_snoc (rows : List SqlRow) (r : SqlRow) :
    ((flatten (rows ++ [r])).map fun R => R.Constraints.len).sum
      = ((flatten rows).map fun R => R.Constraints.len).sum
        + (if r.c_id.isSome then 1 else 0) := by
  rw [flatten_snoc, pureStep_total _ _ (flatten_ids_nodup rows)]

theorem flatten_total (rows : List SqlRow) :
    ((flatten rows).map fun R => R.Constraints.len).sum
      = (rows.filter fun r => r.c_id.isSome).length := by
  induction rows using List.reverseRecOn with
  | nil => simp [flatten]
  | append_singleton l r ih =>
    rw [flatten_total_snoc, ih, List.filter_append, List.length_append]
    congr 1
    by_cases hv : r.c_id.isSome = true
    · simp [List.filter, hv]
    · simp [List.filter, hv]

/-! ## Lemmas: the loop in the middle of the stream -/

theorem rulesLoop_append (done : List SqlRow) (rest : List (Except GoError SqlRow)) :
    ∀ st, rulesLoop (done.map Except.ok ++ rest) st = rulesLoop rest (done.foldl loopBody st) := by
  induction done with
  | nil => intro st; rfl
  | cons r done ih =>
    intro st
    simp only [List.map_cons, List.cons_append, rulesLoop, List.foldl_cons]
    exact ih _

theorem getElem?_range_indexOf (ids : List String) (k : String) :
    (List.range ids.length)[ids.indexOf k]? =
      if k ∈ ids then some (ids.indexOf k) else none := by
  by_cases hk : k ∈ ids
  · have h := List.indexOf_lt_length.2 hk
    rw [if_pos hk, List.getElem?_eq_getElem (by simpa using h)]
    simp
  · rw [if_neg hk, List.indexOf_of_not_mem hk]
    simp

/-! ## Lemmas: more rows -/

theorem toList_mk {α : Type} (l : List α) : (GoSlice.mk l).toList = l := rfl

theorem firstRows_append (p q : List SqlRow) :
    ∃ ext, firstRows (p ++ q) = firstRows p ++ ext := by
  induction q using List.reverseRecOn with
  | nil => exact ⟨[], by simp⟩
  | append_singleton l r ih =>
    rcases ih with ⟨ext, h⟩
    rw [← List.append_assoc, firstRows_snoc]
    split
    · exact ⟨ext, h⟩
    · exact ⟨ext ++ [r], by rw [h, List.append_assoc]⟩

theorem flatten_fields_append (p q : List SqlRow) :
    ∃ ext, (flatten (p ++ q)).map ruleFields = (flatten p).map ruleFields ++ ext := by
  rcases firstRows_append p q with ⟨ext, h⟩
  exact ⟨ext.map rowFields, by rw [flatten_fields, flatten_fields, h, List.map_append]⟩

theorem constraintsOf_append (p q : List SqlRow) (id : String) :
    constraintsOf (p ++ q) id = constraintsOf p id ++ constraintsOf q id := by
  simp [constraintsOf, List.filter_append]

theorem constraintOf_eq (r : SqlRow) (cid : String) (h : r.c_id = some cid) :
    constraintOf r =
      ⟨cid, ComparisonType (r.c_type.getD 0), r.c_property.getD "", r.c_operator.getD "",
       r.c_value.getD ""⟩ := by
  cases h2 : r.c_type <;> cases h3 : r.c_property <;> cases h4 : r.c_operator <;>
    cases h5 : r.c_value <;>
    simp [constraintOf, mkConstraint, scanRow, NullString.Scan, NullInt64.Scan, h, h2, h3, h4,
      h5]

theorem indexOf_lt_iff_of_mem_iff {l1 l2 : List String}
    (hmem : ∀ k, k ∈ l1 ↔ k ∈ l2)
    (hord : ∀ a b, a ∈ l2 → b ∈ l2 → (l1.indexOf a < l1.indexOf b ↔ l2.indexOf a < l2.indexOf b))
    (a b : String) :
    (l1.indexOf a < l1.indexOf b ↔ l2.indexOf a < l2.indexOf b) := by
  by_cases ha : a ∈ l2
  · by_cases hb : b ∈ l2
    · exact hord a b ha hb
    · have hb1 : b ∉ l1 := fun h => hb ((hmem b).1 h)
      rw [List.indexOf_of_not_mem hb, List.indexOf_of_not_mem hb1]
      exact ⟨fun _ => List.indexOf_lt_length.2 ha,
        fun _ => List.indexOf_lt_length.2 ((hmem a).2 ha)⟩
  · have ha1 : a ∉ l1 := fun h => ha ((hmem a).1 h)
    rw [List.indexOf_of_not_mem ha, List.indexOf_of_not_mem ha1]
    have h1 := @List.indexOf_le_length _ _ b l1
    have h2 := @List.indexOf_le_length _ _ b l2
    exact ⟨fun h => absurd h (by omega), fun h => absurd h (by omega)⟩

/-! ## Theorems: the claims -/

/-- C1: on a row stream that decodes and ends without error the call returns no
error, and the constraint sequence of every returned rule R is, in arrival
order, the list of the constraints of exactly the rows whose rule id is the id
of R and whose constraint id is present, adjacent or not; the constraint of a
row takes its id, property, operator and value from the row, and as type the
conversion of the type column to the comparison-type enum. -/
theorem GetEvaluationRules_constraints (rows : List SqlRow) (closeErr : Option GoError)
    (R : EvaluationRule) (hR : R ∈ (GetEvaluationRules (cleanRows rows closeErr)).result.toList) :
    (GetEvaluationRules (cleanRows rows closeErr)).error = none ∧
    R.Constraints.toList =
      (rows.filter fun r => decide (r.r_id = R.ID) && r.c_id.isSome).map
        (fun r => mkConstraint (scanRow r).2) ∧
    ∀ (r : SqlRow) (id property operator value : String) (type : Int),
      r.c_id = some id → r.c_type = some type → r.c_property = some property →
      r.c_operator = some operator → r.c_value = some value →
      mkConstraint (scanRow r).2 = ⟨id, ComparisonType type, property, operator, value⟩ := by
  unfold cleanRows at hR ⊢
  rw [GetEvaluationRules_ok] at hR ⊢
  refine ⟨rfl, ?_, ?_⟩
  · rw [flatten_constraints rows R hR, sliceOf_toList]
    rfl
  · intro r id property operator value type h1 h2 h3 h4 h5
    simp [mkConstraint, scanRow, NullString.Scan, NullInt64.Scan, h1, h2, h3, h4, h5]

/-- Witness of C1: the two constraints of rule r1 arrive around the row of
rule r2. -/
theorem GetEvaluationRules_constraints_witness :
    (⟨"r1", "new-feature", "beta-users", 0, 1,
        GoSlice.mk [⟨"c1", 1, "plan", "eq", "pro"⟩, ⟨"c2", 1, "region", "eq", "eu"⟩]⟩ :
      EvaluationRule) ∈
      (GetEvaluationRules (cleanRows [rowBeta1, rowEveryone, rowBeta2] none)).result.toList ∧
    [(⟨"c1", 1, "plan", "eq", "pro"⟩ : EvaluationConstraint), ⟨"c2", 1, "region", "eq", "eu"⟩] =
      ([rowBeta1, rowEveryone, rowBeta2].filter
        fun r => decide (r.r_id = "r1") && r.c_id.isSome).map
        (fun r => mkConstraint (scanRow r).2) :=
  ⟨by decide,
   (GetEvaluationRules_constraints [rowBeta1, rowEveryone, rowBeta2] none
      ⟨"r1", "new-feature", "beta-users", 0, 1,
        GoSlice.mk [⟨"c1", 1, "plan", "eq", "pro"⟩, ⟨"c2", 1, "region", "eq", "eu"⟩]⟩
      (by decide)).2.1⟩

/-- C2: on a row stream that decodes and ends without error, the ids of the
returned rules are the distinct rule ids of the rows in order of first
occurrence: no id is returned twice, an id is returned exactly when a row
carries it, and one id comes before another in the result exactly when its
first row comes before the first row of the other. -/
theorem GetEvaluationRules_ids (rows : List SqlRow) (closeErr : Option GoError) :
    ((GetEvaluationRules (cleanRows rows closeErr)).result.toList.map EvaluationRule.ID).Nodup ∧
    (∀ k, k ∈ (GetEvaluationRules (cleanRows rows closeErr)).result.toList.map EvaluationRule.ID
      ↔ k ∈ rows.map SqlRow.r_id) ∧
    (∀ a b,
      ((GetEvaluationRules (cleanRows rows closeErr)).result.toList.map EvaluationRule.ID).indexOf a
        < ((GetEvaluationRules (cleanRows rows closeErr)).result.toList.map
            EvaluationRule.ID).indexOf b
      ↔ (rows.map SqlRow.r_id).indexOf a < (rows.map SqlRow.r_id).indexOf b) := by
  unfold cleanRows
  rw [GetEvaluationRules_ok]
  exact ⟨flatten_ids_nodup rows, mem_flatten_ids rows,
    indexOf_lt_iff_of_mem_iff (mem_flatten_ids rows) (flatten_ids_order rows)⟩

/-- C3: when the rows arrive in non-decreasing rank order the returned rules
are in non-decreasing rank order; and when moreover the rows carry exactly the
N distinct rule ids of `ranked`, each row with the rank of its rule, those
ranks being strictly increasing, the call returns exactly N rules, the i-th
being the i-th rule of `ranked` with its rank. -/
theorem GetEvaluationRules_rank_order (rows : List SqlRow) (closeErr : Option GoError)
    (hsorted : (rows.map SqlRow.r_rank).Sorted (· ≤ ·)) :
    ((GetEvaluationRules (cleanRows rows closeErr)).result.toList.map
        EvaluationRule.Rank).Sorted (· ≤ ·) ∧
    ∀ ranked : List (String × Int),
      (ranked.map Prod.fst).Nodup → (ranked.map Prod.snd).Sorted (· < ·) →
      (∀ r ∈ rows, (r.r_id, r.r_rank) ∈ ranked) →
      (∀ p ∈ ranked, p.1 ∈ rows.map SqlRow.r_id) →
      (GetEvaluationRules (cleanRows rows closeErr)).result.len = ranked.length ∧
      (GetEvaluationRules (cleanRows rows closeErr)).result.toList.map EvaluationRule.Rank
        = ranked.map Prod.snd ∧
      (GetEvaluationRules (cleanRows rows closeErr)).result.toList.map (fun R => (R.ID, R.Rank))
        = ranked := by
  unfold cleanRows
  rw [GetEvaluationRules_ok]
  refine ⟨flatten_ranks_sorted rows hsorted, ?_⟩
  intro ranked hids hranks hrows hall
  have h := flatten_eq_ranked rows ranked hsorted hids hranks hrows hall
  refine ⟨?_, ?_, h⟩
  · have := congrArg List.length h
    simpa [GoSlice.len, GoSlice.toList] using this
  · have := congrArg (List.map Prod.snd) h
    simpa [List.map_map, Function.comp_def, GoSlice.toList] using this

/-- Witness of C3: the two rules of flag `new-feature`, ranks 1 and 2, the
first one delivered by two rows. -/
theorem GetEvaluationRules_rank_order_witness :
    ([rowBeta1, rowBeta2, rowEveryone].map SqlRow.r_rank).Sorted (· ≤ ·) ∧
    (GetEvaluationRules (cleanRows [rowBeta1, rowBeta2, rowEveryone] none)).result.toList.map
        (fun R => (R.ID, R.Rank)) = [("r1", 1), ("r2", 2)] :=
  ⟨by decide,
   ((GetEvaluationRules_rank_order [rowBeta1, rowBeta2, rowEveryone] none (by decide)).2
      [("r1", 1), ("r2", 2)] (by decide) (by decide) (by decide) (by decide)).2.2⟩

/-- C4, as stated, fails: the only row of rule r2 has absent constraint
columns, and the constraint sequence returned for r2 has length 0 but is the
nil slice. -/
theorem GetEvaluationRules_no_constraint_counterexample :
    (GetEvaluationRules (cleanRows [rowEveryone] none)).result
      = GoSlice.mk [⟨"r2", "new-feature", "everyone", 0, 2, GoSlice.nil⟩] ∧
    ¬ ∀ R ∈ (GetEvaluationRules (cleanRows [rowEveryone] none)).result.toList,
        (∀ r ∈ [rowEveryone], r.r_id = R.ID → r.c_id = none) →
        R.Constraints.len = 0 ∧ R.Constraints.isNil = false := by
  decide

/-- C4, amended: on a row stream that decodes and ends without error, a rule id
all of whose rows carry an absent constraint id is returned, and the constraint
sequence of the rule returned for it is the nil slice, of length 0. -/
theorem GetEvaluationRules_no_constraint (rows : List SqlRow) (closeErr : Option GoError)
    (id : String) (hid : id ∈ rows.map SqlRow.r_id)
    (hnone : ∀ r ∈ rows, r.r_id = id → r.c_id = none) :
    (∃ R ∈ (GetEvaluationRules (cleanRows rows closeErr)).result.toList, R.ID = id) ∧
    ∀ R ∈ (GetEvaluationRules (cleanRows rows closeErr)).result.toList, R.ID = id →
      R.Constraints = GoSlice.nil ∧ R.Constraints.len = 0 := by
  unfold cleanRows
  rw [GetEvaluationRules_ok]
  constructor
  · have := (mem_flatten_ids rows id).2 hid
    rcases List.mem_map.1 this with ⟨R, hR, hRid⟩
    exact ⟨R, hR, hRid⟩
  · intro R hR hRid
    have hc : constraintsOf rows id = [] := by
      unfold constraintsOf
      rw [List.map_eq_nil_iff, List.filter_eq_nil_iff]
      intro r hr hcond
      simp only [Bool.and_eq_true, decide_eq_true_eq] at hcond
      have := hnone r hr hcond.1
      rw [this] at hcond
      exact absurd hcond.2 (by simp)
    have h := flatten_constraints rows R hR
    rw [hRid, hc] at h
    rw [h]
    exact ⟨rfl, rfl⟩

/-- Witness of C4 amended: rule r2 among the rows of flag `new-feature`. -/
theorem GetEvaluationRules_no_constraint_witness :
    "r2" ∈ [rowBeta1, rowEveryone, rowBeta2].map SqlRow.r_id ∧
    ∃ R ∈ (GetEvaluationRules (cleanRows [rowBeta1, rowEveryone, rowBeta2] none)).result.toList,
      R.ID = "r2" :=
  ⟨by decide,
   (GetEvaluationRules_no_constraint [rowBeta1, rowEveryone, rowBeta2] none "r2"
      (by decide) (by decide)).1⟩

/-- C5, as stated, fails: the call succeeds on a stream that delivers the same
(rule, constraint) pair twice, and constraint id c1 then appears twice in the
constraint sequence of rule r1. -/
theorem GetEvaluationRules_constraint_ids_counterexample :
    (GetEvaluationRules (cleanRows [rowBeta1, rowBeta1] none)).error = none ∧
    (GetEvaluationRules (cleanRows [rowBeta1, rowBeta1] none)).result.toList.map
        (fun R => R.Constraints.toList.map EvaluationConstraint.ID) = [["c1", "c1"]] ∧
    ¬ ∀ R ∈ (GetEvaluationRules (cleanRows [rowBeta1, rowBeta1] none)).result.toList,
        (R.Constraints.toList.map EvaluationConstraint.ID).Nodup := by
  decide

/-- C5, amended: on a row stream that decodes and ends without error and in
which no two rows with a present constraint id share both rule id and
constraint id, no constraint id appears twice within the constraint sequence of
a returned rule. -/
theorem GetEvaluationRules_constraint_ids_nodup (rows : List SqlRow)
    (closeErr : Option GoError)
    (hdistinct : ((rows.filter fun r => r.c_id.isSome).map fun r => (r.r_id, r.c_id)).Nodup)
    (R : EvaluationRule)
    (hR : R ∈ (GetEvaluationRules (cleanRows rows closeErr)).result.toList) :
    (R.Constraints.toList.map EvaluationConstraint.ID).Nodup := by
  unfold cleanRows at hR
  rw [GetEvaluationRules_ok] at hR
  rw [flatten_constraints rows R hR, sliceOf_toList]
  exact constraintsOf_ids_nodup rows R.ID hdistinct

/-- Witness of C5 amended: rule r1 with its two distinct constraints. -/
theorem GetEvaluationRules_constraint_ids_nodup_witness :
    (([rowBeta1, rowEveryone, rowBeta2].filter fun r => r.c_id.isSome).map
        fun r => (r.r_id, r.c_id)).Nodup ∧
    (([⟨"c1", 1, "plan", "eq", "pro"⟩, ⟨"c2", 1, "region", "eq", "eu"⟩] :
        List EvaluationConstraint).map EvaluationConstraint.ID).Nodup :=
  ⟨by decide,
   GetEvaluationRules_constraint_ids_nodup [rowBeta1, rowEveryone, rowBeta2] none (by decide)
      ⟨"r1", "new-feature", "beta-users", 0, 1,
        GoSlice.mk [⟨"c1", 1, "plan", "eq", "pro"⟩, ⟨"c2", 1, "region", "eq", "eu"⟩]⟩
      (by decide)⟩

/-- C6: the call is all-or-nothing: whatever the query, the decodes and the end
of the iteration do, a call that returns a non-nil error returns the nil rule
sequence. -/
theorem GetEvaluationRules_all_or_nothing (query : Except GoError (Rows SqlRow))
    (herr : (GetEvaluationRules query).error ≠ none) :
    (GetEvaluationRules query).result = GoSlice.nil := by
  cases query with
  | error e => rfl
  | ok rows =>
    unfold GetEvaluationRules at herr ⊢
    simp only at herr ⊢
    cases hloop : rulesLoop rows.items LoopState.init with
    | error e => rfl
    | ok st =>
      rw [hloop] at herr
      cases hiter : rows.err with
      | some e => rfl
      | none => rw [hiter] at herr; exact absurd rfl herr

/-- Witness of C6: the second row fails to decode after a rule was built. -/
theorem GetEvaluationRules_all_or_nothing_witness :
    (GetEvaluationRules (Except.ok
        ⟨[Except.ok rowBeta1, Except.error "bad row", Except.ok rowEveryone], none, none⟩)).error
      ≠ none ∧
    (GetEvaluationRules (Except.ok
        ⟨[Except.ok rowBeta1, Except.error "bad row", Except.ok rowEveryone], none, none⟩)).result
      = GoSlice.nil :=
  ⟨by decide,
   GetEvaluationRules_all_or_nothing
    (Except.ok ⟨[Except.ok rowBeta1, Except.error "bad row", Except.ok rowEveryone], none, none⟩)
    (by decide)⟩

/-- C7: the error returned is the earliest failure, unchanged: a query error is
returned as it is, and no cursor is read or closed; the decode error of the
first row that fails to decode is returned as it is, whatever rows follow and
whatever the end of the iteration reports; the iteration error is returned when
every row decoded; and the outcome of closing the cursor changes neither
return value. -/
theorem GetEvaluationRules_error_is_earliest :
    (∀ e : GoError,
      (GetEvaluationRules (Except.error e)).error = some e ∧
      (GetEvaluationRules (Except.error e)).closed = 0) ∧
    (∀ (pre : List SqlRow) (e : GoError) (rest : List (Except GoError SqlRow))
        (iterErr closeErr : Option GoError),
      (GetEvaluationRules
        (Except.ok ⟨pre.map Except.ok ++ Except.error e :: rest, iterErr, closeErr⟩)).error
        = some e) ∧
    (∀ (rows : List SqlRow) (e : GoError) (closeErr : Option GoError),
      (GetEvaluationRules (Except.ok ⟨rows.map Except.ok, some e, closeErr⟩)).error = some e) ∧
    (∀ (items : List (Except GoError SqlRow)) (iterErr closeErr : Option GoError),
      (GetEvaluationRules (Except.ok ⟨items, iterErr, closeErr⟩)).error
        = (GetEvaluationRules (Except.ok ⟨items, iterErr, none⟩)).error ∧
      (GetEvaluationRules (Except.ok ⟨items, iterErr, closeErr⟩)).result
        = (GetEvaluationRules (Except.ok ⟨items, iterErr, none⟩)).result) := by
  refine ⟨fun e => ⟨rfl, rfl⟩, ?_, ?_, ?_⟩
  · intro pre e rest iterErr closeErr
    simp only [GetEvaluationRules, rulesLoop_decode_error]
  · intro rows e closeErr
    simp only [GetEvaluationRules, rulesLoop_ok]
  · intro items iterErr closeErr
    exact ⟨rfl, rfl⟩

/-- C8, on the code: the query succeeds, the row decodes, the iteration ends
without error and closing the cursor fails; both calls return a nil error, the
close failure ending in the local variable `err` only. -/
theorem close_failure_not_returned :
    GetEvaluationRules (cleanRows [rowEveryone] (some "close failed"))
      = ⟨GoSlice.mk [⟨"r2", "new-feature", "everyone", 0, 2, GoSlice.nil⟩], none,
         some "close failed", 1⟩ ∧
    GetEvaluationDistributions
        (Except.ok ⟨[Except.ok (⟨"d1", "r1", "v1", 70, "on"⟩ : DistributionRow Nat)], none,
          some "close failed"⟩)
      = ⟨GoSlice.mk [⟨"d1", "r1", "v1", 70, "on"⟩], none, some "close failed", 1⟩ := by
  decide

/-- C9: on a row stream that decodes and ends without error the call returns no
error and one distribution record per row, in arrival order, the i-th record
carrying the id, rule id, variant id, rollout and variant key of the i-th row;
the result is as long as the row stream. -/
theorem GetEvaluationDistributions_rows {ω : Type} (rows : List (DistributionRow ω))
    (closeErr : Option GoError) :
    (GetEvaluationDistributions (Except.ok ⟨rows.map Except.ok, none, closeErr⟩)).error = none ∧
    (GetEvaluationDistributions (Except.ok ⟨rows.map Except.ok, none, closeErr⟩)).result.toList
      = rows.map (fun r => ⟨r.d_id, r.d_rule_id, r.d_variant_id, r.d_rollout, r.v_key⟩) ∧
    (GetEvaluationDistributions (Except.ok ⟨rows.map Except.ok, none, closeErr⟩)).result.len
      = rows.length := by
  rcases distributionsLoop_ok rows GoSlice.nil with ⟨out, h1, h2, _⟩
  have h3 : out.toList = rows.map distributionOf := by rw [h2]; rfl
  simp only [GetEvaluationDistributions, h1, GoSlice.len, h3, List.length_map, and_true,
    true_and]
  rfl

/-- C10: a query failure, a decode failure at any row, and an iteration error
after rows that all decoded, each make the call return that error with the nil
distribution sequence. -/
theorem GetEvaluationDistributions_all_or_nothing {ω : Type} :
    (∀ e : GoError,
      (GetEvaluationDistributions (Except.error e :
          Except GoError (Rows (DistributionRow ω)))).result = GoSlice.nil ∧
      (GetEvaluationDistributions (Except.error e :
          Except GoError (Rows (DistributionRow ω)))).error = some e) ∧
    (∀ (pre : List (DistributionRow ω)) (e : GoError)
        (rest : List (Except GoError (DistributionRow ω))) (iterErr closeErr : Option GoError),
      (GetEvaluationDistributions
        (Except.ok ⟨pre.map Except.ok ++ Except.error e :: rest, iterErr, closeErr⟩)).result
        = GoSlice.nil ∧
      (GetEvaluationDistributions
        (Except.ok ⟨pre.map Except.ok ++ Except.error e :: rest, iterErr, closeErr⟩)).error
        = some e) ∧
    (∀ (rows : List (DistributionRow ω)) (e : GoError) (closeErr : Option GoError),
      (GetEvaluationDistributions
        (Except.ok ⟨rows.map Except.ok, some e, closeErr⟩)).result = GoSlice.nil ∧
      (GetEvaluationDistributions
        (Except.ok ⟨rows.map Except.ok, some e, closeErr⟩)).error = some e) := by
  refine ⟨fun e => ⟨rfl, rfl⟩, ?_, ?_⟩
  · intro pre e rest iterErr closeErr
    simp only [GetEvaluationDistributions, distributionsLoop_decode_error, and_self]
  · intro rows e closeErr
    rcases distributionsLoop_ok rows GoSlice.nil with ⟨out, h1, _, _⟩
    simp only [GetEvaluationDistributions, h1, and_self]

/-- C11: with the cursor as explicit state threaded through every method call
of both functions, which return what `GetEvaluationRules` and
`GetEvaluationDistributions` return: when the query succeeds, whatever the
rows, the end of the iteration and the close do, the cursor is closed when the
call returns, `rows.Close()` was called exactly once and it is the last method
call on the cursor; when the query fails there is no cursor. -/
theorem cursor_closed_exactly_once {ω : Type} :
    (∀ rows : Rows SqlRow,
      (GetEvaluationRulesCursor (Except.ok rows)).1 = GetEvaluationRules (Except.ok rows) ∧
      ∃ c before, (GetEvaluationRulesCursor (Except.ok rows)).2 = some c ∧
        c.closed = true ∧ c.calls = before ++ [CursorOp.Close] ∧
        CursorOp.Close ∉ before ∧ c.calls.count CursorOp.Close = 1) ∧
    (∀ e : GoError,
      (GetEvaluationRulesCursor (Except.error e)).1 = GetEvaluationRules (Except.error e) ∧
      (GetEvaluationRulesCursor (Except.error e)).2 = none) ∧
    (∀ rows : Rows (DistributionRow ω),
      (GetEvaluationDistributionsCursor (Except.ok rows)).1
        = GetEvaluationDistributions (Except.ok rows) ∧
      ∃ c before, (GetEvaluationDistributionsCursor (Except.ok rows)).2 = some c ∧
        c.closed = true ∧ c.calls = before ++ [CursorOp.Close] ∧
        CursorOp.Close ∉ before ∧ c.calls.count CursorOp.Close = 1) ∧
    (∀ e : GoError,
      (GetEvaluationDistributionsCursor
          (Except.error e : Except GoError (Rows (DistributionRow ω)))).1
        = GetEvaluationDistributions (Except.error e) ∧
      (GetEvaluationDistributionsCursor
          (Except.error e : Except GoError (Rows (DistributionRow ω)))).2 = none) := by
  refine ⟨?_, fun e => ⟨rfl, rfl⟩, ?_, fun e => ⟨rfl, rfl⟩⟩
  · intro rows
    rcases rulesBody_spec rows with ⟨h1, _, h3, h4⟩
    rcases deferredCloseCursor_spec (rulesBody (Cursor.opened rows)).2 rows h3 with
      ⟨d1, d2, d3⟩
    have hcount := count_close_snoc _ h4
    rw [← d3] at hcount
    constructor
    · simp only [GetEvaluationRulesCursor, GetEvaluationRules, h1, d1, hcount]
    · exact ⟨_, _, rfl, d2, d3, h4, hcount⟩
  · intro rows
    rcases distributionsBody_spec rows with ⟨h1, _, h3, h4⟩
    rcases deferredCloseCursor_spec (distributionsBody (Cursor.opened rows)).2 rows h3 with
      ⟨d1, d2, d3⟩
    have hcount := count_close_snoc _ h4
    rw [← d3] at hcount
    constructor
    · simp only [GetEvaluationDistributionsCursor, GetEvaluationDistributions, h1, d1, hcount]
    · exact ⟨_, _, rfl, d2, d3, h4, hcount⟩

/-- C12: on a row stream that decodes and ends without error, the number of
constraints over all returned rules is the number of rows whose constraint id
is present; so one more row adds exactly one constraint when its constraint id
is present, the empty string included, and none when it is absent. -/
theorem GetEvaluationRules_constraint_count (rows : List SqlRow) (closeErr : Option GoError) :
    ((GetEvaluationRules (cleanRows rows closeErr)).result.toList.map
        fun R => R.Constraints.len).sum
      = (rows.filter fun r => r.c_id.isSome).length ∧
    (∀ r : SqlRow,
      ((GetEvaluationRules (cleanRows (rows ++ [r]) closeErr)).result.toList.map
          fun R => R.Constraints.len).sum
        = ((GetEvaluationRules (cleanRows rows closeErr)).result.toList.map
            fun R => R.Constraints.len).sum
          + (match r.c_id with
             | some _ => 1
             | none => 0)) := by
  unfold cleanRows
  simp only [GetEvaluationRules_ok, GoSlice.toList]
  refine ⟨flatten_total rows, ?_⟩
  intro r
  rw [flatten_total_snoc]
  cases r.c_id <;> rfl

/-- C13: after the loop has processed any rows `done`, which is the state in
which it goes on with the rest of the stream: a rule id is a key of `seenRules`
exactly when a rule of the sequence has that id; the entry of the map for an id
is the pointer that the sequence holds at the position of the rule with that
id, so map and sequence share the rule object; no two rules of the sequence
share an id; and the pointers of the sequence are distinct and point into the
allocated objects. -/
theorem loop_invariant (done : List SqlRow) :
    (∀ rest : List (Except GoError SqlRow),
      rulesLoop (done.map Except.ok ++ rest) LoopState.init
        = rulesLoop rest (done.foldl loopBody LoopState.init)) ∧
    (∀ k : String,
      ((done.foldl loopBody LoopState.init).seenRules k).isSome = true ↔
        k ∈ (derefAll (done.foldl loopBody LoopState.init).heap
              (done.foldl loopBody LoopState.init).rules).toList.map EvaluationRule.ID) ∧
    (∀ k : String,
      (done.foldl loopBody LoopState.init).seenRules k =
        (done.foldl loopBody LoopState.init).rules.toList[
          ((derefAll (done.foldl loopBody LoopState.init).heap
              (done.foldl loopBody LoopState.init).rules).toList.map
            EvaluationRule.ID).indexOf k]?) ∧
    ((derefAll (done.foldl loopBody LoopState.init).heap
        (done.foldl loopBody LoopState.init).rules).toList.map EvaluationRule.ID).Nodup ∧
    (done.foldl loopBody LoopState.init).rules.toList.Nodup ∧
    (done.foldl loopBody LoopState.init).rules.toList.all
      (fun p => decide (p < (done.foldl loopBody LoopState.init).heap.length)) = true := by
  refine ⟨fun rest => rulesLoop_append done rest _, ?_⟩
  have hwf := (foldl_loopBody done LoopState.init LoopState.init_WF).1
  generalize done.foldl loopBody LoopState.init = st at hwf
  rw [hwf.rules_eq, derefAll_range]
  simp only [GoSlice.toList]
  refine ⟨?_, ?_, hwf.nodup, List.nodup_range _, ?_⟩
  · intro k
    rw [hwf.seen_eq k]
    by_cases hk : k ∈ st.heap.map EvaluationRule.ID <;> simp [hk]
  · intro k
    rw [hwf.seen_eq k]
    have h := getElem?_range_indexOf (st.heap.map EvaluationRule.ID) k
    rw [List.length_map] at h
    exact h.symm
  · simp [List.all_eq_true]

/-- C14: on a row stream that decodes and ends without error, every returned
rule has the flag key, segment key, segment match type and rank of the first
row that carries its id, whatever the rule columns of the later rows with that
id. -/
theorem GetEvaluationRules_fields_of_first_row (rows : List SqlRow)
    (closeErr : Option GoError) (R : EvaluationRule)
    (hR : R ∈ (GetEvaluationRules (cleanRows rows closeErr)).result.toList) :
    ∃ r, rows.find? (fun r => decide (r.r_id = R.ID)) = some r ∧
      R.FlagKey = r.r_flag_key ∧ R.SegmentKey = r.r_segment_key ∧
      R.SegmentMatchType = r.s_match_type ∧ R.Rank = r.r_rank := by
  unfold cleanRows at hR
  rw [GetEvaluationRules_ok] at hR
  have h := flatten_mem rows R hR
  have hid := (mem_flatten_ids rows R.ID).1 (List.mem_map.2 ⟨R, hR, rfl⟩)
  rcases find_isSome_of_mem rows R.ID hid with ⟨r0, hf, _⟩
  refine ⟨r0, hf, ?_⟩
  rw [h]
  simp [ruleOf, hf]

/-- Witness of C14: the second row of rule r1 carries other rule columns, and
the rule returned keeps those of the first row. -/
theorem GetEvaluationRules_fields_of_first_row_witness :
    (⟨"r1", "new-feature", "beta-users", 0, 1,
        GoSlice.mk [⟨"c1", 1, "plan", "eq", "pro"⟩, ⟨"c3", 2, "age", "gt", "18"⟩]⟩ :
      EvaluationRule) ∈
      (GetEvaluationRules (cleanRows [rowBeta1, rowBeta3] none)).result.toList ∧
    ∃ r, [rowBeta1, rowBeta3].find? (fun r => decide (r.r_id = "r1")) = some r ∧
      "new-feature" = r.r_flag_key ∧ "beta-users" = r.r_segment_key ∧
      (0 : Int) = r.s_match_type ∧ (1 : Int) = r.r_rank :=
  ⟨by decide,
   GetEvaluationRules_fields_of_first_row [rowBeta1, rowBeta3] none
      ⟨"r1", "new-feature", "beta-users", 0, 1,
        GoSlice.mk [⟨"c1", 1, "plan", "eq", "pro"⟩, ⟨"c3", 2, "age", "gt", "18"⟩]⟩
      (by decide)⟩

/-- C15: reading the rows `q` after the rows `p` keeps what `p` produced: the
rule ids from `p` open the rule ids from `p` followed by `q`, and the rule at
any position of the result from `p` is at the same position of the result from
`p` followed by `q` with the same rule fields and a constraint sequence that
begins with its constraint sequence from `p`. -/
theorem GetEvaluationRules_monotone (p q : List SqlRow) (closeErr : Option GoError)
    (i : Nat) (R : EvaluationRule)
    (hR : (GetEvaluationRules (cleanRows p closeErr)).result.toList[i]? = some R) :
    (GetEvaluationRules (cleanRows p closeErr)).result.toList.map EvaluationRule.ID
      <+: (GetEvaluationRules (cleanRows (p ++ q) closeErr)).result.toList.map
            EvaluationRule.ID ∧
    ∃ R2, (GetEvaluationRules (cleanRows (p ++ q) closeErr)).result.toList[i]? = some R2 ∧
      R2.ID = R.ID ∧ R2.FlagKey = R.FlagKey ∧ R2.SegmentKey = R.SegmentKey ∧
      R2.SegmentMatchType = R.SegmentMatchType ∧ R2.Rank = R.Rank ∧
      R.Constraints.toList <+: R2.Constraints.toList := by
  unfold cleanRows at hR ⊢
  rw [GetEvaluationRules_ok] at hR ⊢
  rw [GetEvaluationRules_ok]
  simp only [toList_mk] at hR ⊢
  rcases flatten_fields_append p q with ⟨ext, hext⟩
  constructor
  · refine ⟨ext.map Prod.fst, ?_⟩
    have := congrArg (List.map Prod.fst) hext
    rw [List.map_append, map_fst_ruleFields, map_fst_ruleFields] at this
    exact this.symm
  · have hlt : i < ((flatten p).map ruleFields).length := by
      rw [List.length_map]
      exact (List.getElem?_eq_some.1 hR).1
    have h1 : ((flatten (p ++ q)).map ruleFields)[i]? = some (ruleFields R) := by
      rw [hext, List.getElem?_append_left hlt, List.getElem?_map, hR]
      rfl
    rw [List.getElem?_map] at h1
    cases h2 : (flatten (p ++ q))[i]? with
    | none => rw [h2] at h1; simp at h1
    | some R2 =>
      rw [h2] at h1
      have hf : ruleFields R2 = ruleFields R := by simpa using h1
      have hid : R2.ID = R.ID := congrArg Prod.fst hf
      simp only [ruleFields, Prod.mk.injEq] at hf
      refine ⟨R2, rfl, hf.1, hf.2.1, hf.2.2.1, hf.2.2.2.1, hf.2.2.2.2, ?_⟩
      have hm : R ∈ flatten p := List.getElem?_mem hR
      have hm2 : R2 ∈ flatten (p ++ q) := List.getElem?_mem h2
      rw [flatten_constraints p R hm, flatten_constraints (p ++ q) R2 hm2, sliceOf_toList,
        sliceOf_toList, hid, constraintsOf_append]
      exact ⟨_, rfl⟩

/-- Witness of C15: rule r1 after its first row, and after two more rows. -/
theorem GetEvaluationRules_monotone_witness :
    (GetEvaluationRules (cleanRows [rowBeta1] none)).result.toList[0]? =
      some ⟨"r1", "new-feature", "beta-users", 0, 1,
        GoSlice.mk [⟨"c1", 1, "plan", "eq", "pro"⟩]⟩ ∧
    ∃ R2, (GetEvaluationRules
        (cleanRows ([rowBeta1] ++ [rowEveryone, rowBeta2]) none)).result.toList[0]? = some R2 ∧
      R2.ID = "r1" ∧ R2.FlagKey = "new-feature" ∧ R2.SegmentKey = "beta-users" ∧
      R2.SegmentMatchType = 0 ∧ R2.Rank = 1 ∧
      [(⟨"c1", 1, "plan", "eq", "pro"⟩ : EvaluationConstraint)] <+: R2.Constraints.toList :=
  ⟨by decide,
   (GetEvaluationRules_monotone [rowBeta1] [rowEveryone, rowBeta2] none 0
      ⟨"r1", "new-feature", "beta-users", 0, 1, GoSlice.mk [⟨"c1", 1, "plan", "eq", "pro"⟩]⟩
      (by decide)).2⟩

/-- C16: a row whose constraint id is present adds a constraint to its rule
whatever the presence of its type, property, operator and value, each absent
one of these being read as its zero value (comparison type 0, empty string);
and the number of constraints of a returned rule is the number of rows with
its id and a present constraint id, the other constraint columns having no
part in it. -/
theorem GetEvaluationRules_absent_fields (rows : List SqlRow) (r : SqlRow) (cid : String)
    (closeErr : Option GoError) (hcid : r.c_id = some cid) (R : EvaluationRule)
    (hR : R ∈ (GetEvaluationRules (cleanRows (rows ++ [r]) closeErr)).result.toList)
    (hid : R.ID = r.r_id) :
    R.Constraints.toList =
      (rows.filter fun x => decide (x.r_id = R.ID) && x.c_id.isSome).map
          (fun x => mkConstraint (scanRow x).2) ++
        [⟨cid, ComparisonType (r.c_type.getD 0), r.c_property.getD "", r.c_operator.getD "",
          r.c_value.getD ""⟩] ∧
    ComparisonType 0 = 0 ∧
    ∀ R0 ∈ (GetEvaluationRules (cleanRows rows closeErr)).result.toList,
      R0.Constraints.len =
        (rows.filter fun x => decide (x.r_id = R0.ID) && x.c_id.isSome).length := by
  unfold cleanRows at hR ⊢
  rw [GetEvaluationRules_ok] at hR ⊢
  simp only [toList_mk] at hR ⊢
  refine ⟨?_, by decide, ?_⟩
  · rw [flatten_constraints _ R hR, sliceOf_toList, constraintsOf_snoc,
      if_pos ⟨hid.symm, by simp [hcid]⟩, constraintOf_eq r cid hcid]
    rfl
  · intro R0 hR0
    rw [flatten_constraints rows R0 hR0]
    simp [GoSlice.len, sliceOf_toList, constraintsOf]

/-- Witness of C16: after the first row of rule r1, a row with constraint id c9
and no other constraint column. -/
theorem GetEvaluationRules_absent_fields_witness :
    (⟨"r1", "new-feature", "beta-users", 0, 1,
        GoSlice.mk [⟨"c1", 1, "plan", "eq", "pro"⟩, ⟨"c9", 0, "", "", ""⟩]⟩ : EvaluationRule) ∈
      (GetEvaluationRules (cleanRows ([rowBeta1] ++ [rowBare]) none)).result.toList ∧
    [(⟨"c1", 1, "plan", "eq", "pro"⟩ : EvaluationConstraint), ⟨"c9", 0, "", "", ""⟩] =
      ([rowBeta1].filter fun x => decide (x.r_id = "r1") && x.c_id.isSome).map
          (fun x => mkConstraint (scanRow x).2) ++
        [⟨"c9", ComparisonType ((none : Option Int).getD 0), (none : Option String).getD "",
          (none : Option String).getD "", (none : Option String).getD ""⟩] :=
  ⟨by decide,
   (GetEvaluationRules_absent_fields [rowBeta1] rowBare "c9" none rfl
      ⟨"r1", "new-feature", "beta-users", 0, 1,
        GoSlice.mk [⟨"c1", 1, "plan", "eq", "pro"⟩, ⟨"c9", 0, "", "", ""⟩]⟩
      (by decide) rfl).1⟩

/-- C17: when the query succeeds and the cursor has no row and ends without
error, both calls return no error and a sequence of length 0. -/
theorem empty_stream_is_success {ω : Type} (closeErr : Option GoError) :
    (GetEvaluationRules (Except.ok ⟨[], none, closeErr⟩)).error = none ∧
    (GetEvaluationRules (Except.ok ⟨[], none, closeErr⟩)).result.len = 0 ∧
    (GetEvaluationDistributions
      (Except.ok ⟨[], none, closeErr⟩ : Except GoError (Rows (DistributionRow ω)))).error
      = none ∧
    (GetEvaluationDistributions
      (Except.ok ⟨[], none, closeErr⟩ : Except GoError (Rows (DistributionRow ω)))).result.len
      = 0 :=
  ⟨rfl, rfl, rfl, rfl⟩

end Flipt
